import Mathlib

/-!
# PreviewMarkdown: the Discount bridge `markdownToHTML`

A shallow embedding of `discount-support/discount-support.c`.

The bridge is the only code of the file; the three Discount entry points it
calls (`mkd_string`, `mkd_compile`, `mkd_document`) and the flag constant
`MKD_EXTRA_FOOTNOTE` come from `markdown.h` and are taken as a parameter
(`Engine`).  Addresses are natural numbers, `NULL` is address 0, bytes are
natural numbers, the C `int` is `Int` and the `(int)` conversion of a
`size_t` is written out as reduction modulo 2^32 into the signed range.

The statements about the bridge alone hold for every `Engine`.  The
statements about what the engine itself does (ownership of the output,
footnotes) are made over `specEngine`, the engine as the specification
describes it.
-/

namespace PreviewMarkdown

/-! ## Machine-level vocabulary -/

/-- A machine address: the value of a `Document *` or of a `char *`. -/
abbrev Ptr := Nat

/-- The null pointer. -/
def NULL : Ptr := 0

/-- The value stdio gives `EOF`, which `mkd_document` returns on failure. -/
def EOF : Int := -1

/-- C `strlen`: the number of bytes in front of the first NUL of the memory
the pointer designates. -/
def strlen : List Nat → Nat
  | [] => 0
  | c :: cs => if c = 0 then 0 else strlen cs + 1

/-- The bytes of a C string: what stands in front of the first NUL. -/
def cstr : List Nat → List Nat
  | [] => []
  | c :: cs => if c = 0 then [] else c :: cstr cs

/-- The conversion `(int)n` of a `size_t` to a 32-bit signed `int`:
`n` modulo 2^32, read in two's complement. -/
def toInt (n : Nat) : Int :=
  if n % 2 ^ 32 < 2 ^ 31 then ((n % 2 ^ 32 : Nat) : Int)
  else ((n % 2 ^ 32 : Nat) : Int) - 2 ^ 32

/-! ## The engine interface of `markdown.h` -/

/-- What a call `mkd_document(doc, &res)` does: the `int` it returns, the
pointer it stores through `res` (`none` when it leaves `*res` untouched) and
the state it leaves. -/
structure DocumentResult (σ : Type) where
  ret : Int
  res : Option Ptr
  state : σ

/-- The Discount entry points the bridge is linked against, as state
transformers over the engine's world `σ` (its heap and anything else it
keeps).  `mkd_string buf len flags` gets the memory at `buf` as a byte list;
`load s p` reads the text buffer at address `p`. -/
structure Engine (σ : Type) where
  MKD_EXTRA_FOOTNOTE : Nat
  mkd_string : List Nat → Int → Nat → σ → Ptr × σ
  mkd_compile : Ptr → Nat → σ → Int × σ
  mkd_document : Ptr → σ → DocumentResult σ
  mkd_cleanup : Ptr → σ → σ
  load : σ → Ptr → List Nat

variable {σ : Type}

/-! ## The bridge -/

/-- `char* markdownToHTML(const char *markdownStr)`:

    char *html = NULL;
    Document *page = mkd_string((char *)markdownStr, (int)strlen(markdownStr), 0);
    mkd_compile(page, MKD_EXTRA_FOOTNOTE);
    return mkd_document(page, &html) == 0 ? NULL : html;

The result is the returned pointer and the state the engine is left in. -/
def markdownToHTML (E : Engine σ) (markdownStr : List Nat) (s : σ) : Ptr × σ :=
  let html : Ptr := NULL
  let a := E.mkd_string markdownStr (toInt (strlen markdownStr)) 0 s
  let page : Ptr := a.1
  let b := E.mkd_compile page E.MKD_EXTRA_FOOTNOTE a.2
  let r := E.mkd_document page b.2
  let html : Ptr := match r.res with
    | some p => p
    | none => html
  (if r.ret = 0 then NULL else html, r.state)

/-- The three engine calls of the bridge, named: the `mkd_document` call it
makes on input `markdownStr` from state `s`. -/
def documentCall (E : Engine σ) (markdownStr : List Nat) (s : σ) : DocumentResult σ :=
  let a := E.mkd_string markdownStr (toInt (strlen markdownStr)) 0 s
  E.mkd_document a.1 (E.mkd_compile a.1 E.MKD_EXTRA_FOOTNOTE a.2).2

/-- The text a `char *` designates in a state: nothing for `NULL`, else the
buffer at that address. -/
def textAt (E : Engine σ) (s : σ) (p : Ptr) : Option (List Nat) :=
  if p = NULL then none else some (E.load s p)

/-! ## Observing the calls -/

/-- One call into the engine, with its arguments. -/
inductive Call where
  | mkd_string (buf : List Nat) (len : Int) (flags : Nat)
  | mkd_compile (doc : Ptr) (flags : Nat)
  | mkd_document (doc : Ptr)
  | mkd_cleanup (doc : Ptr)
  deriving DecidableEq

/-- The engine `E` with a call log next to its state: every entry point
behaves as in `E` and appends its call to the log. -/
def traced (E : Engine σ) : Engine (σ × List Call) where
  MKD_EXTRA_FOOTNOTE := E.MKD_EXTRA_FOOTNOTE
  mkd_string := fun buf len flags s =>
    ((E.mkd_string buf len flags s.1).1,
      ((E.mkd_string buf len flags s.1).2, s.2 ++ [Call.mkd_string buf len flags]))
  mkd_compile := fun doc flags s =>
    ((E.mkd_compile doc flags s.1).1,
      ((E.mkd_compile doc flags s.1).2, s.2 ++ [Call.mkd_compile doc flags]))
  mkd_document := fun doc s =>
    { ret := (E.mkd_document doc s.1).ret
      res := (E.mkd_document doc s.1).res
      state := ((E.mkd_document doc s.1).state, s.2 ++ [Call.mkd_document doc]) }
  mkd_cleanup := fun doc s => (E.mkd_cleanup doc s.1, s.2 ++ [Call.mkd_cleanup doc])
  load := fun s p => E.load s.1 p

/-- The engine `E` with the `int` that `mkd_compile` returns replaced by
`c`; what `mkd_compile` does to the state is unchanged. -/
def withCompileStatus (E : Engine σ) (c : Ptr → Nat → σ → Int) : Engine σ where
  MKD_EXTRA_FOOTNOTE := E.MKD_EXTRA_FOOTNOTE
  mkd_string := E.mkd_string
  mkd_compile := fun doc flags s => (c doc flags s, (E.mkd_compile doc flags s).2)
  mkd_document := E.mkd_document
  mkd_cleanup := E.mkd_cleanup
  load := E.load

/-- The engine's operations are functions of their arguments: there is a
value `doc s p` that a `Document *` designates in a state, and the document
`mkd_string` creates depends only on the `len` bytes it is handed, the
length and the flags; the document `mkd_compile` leaves depends only on the
document and the flags; what `mkd_document` returns and the text it stores
depend only on the document. -/
def IsFunctional (E : Engine σ) : Prop :=
  ∃ (δ : Type) (doc : σ → Ptr → δ) (fstring : List Nat → Int → Nat → δ)
    (fcompile : δ → Nat → δ) (fdocument : δ → Int × Option (Option (List Nat))),
    (∀ buf len flags s,
      doc (E.mkd_string buf len flags s).2 (E.mkd_string buf len flags s).1
        = fstring (buf.take len.toNat) len flags) ∧
    (∀ p flags s, doc (E.mkd_compile p flags s).2 p = fcompile (doc s p) flags) ∧
    (∀ p s, ((E.mkd_document p s).ret,
        (E.mkd_document p s).res.map (textAt E (E.mkd_document p s).state))
        = fdocument (doc s p))

/-! ## The engine, from the specification

Discount itself is not part of the sources.  The definitions of this section
follow the specification's description of the engine (its sections 3, 4, 6
and 7) and are used for the claims that are about the engine and as the
concrete engine of the examples. -/

/-- The bytes of an ASCII string. -/
def ascii (s : String) : List Nat := s.toList.map Char.toNat

/-- Modelled from the spec: the renderer's escaping of one byte of raw text
(section 4.4: `&`, `<` and `>` become entities). -/
def escapeByte (c : Nat) : List Nat :=
  if c = 38 then ascii "&amp;"
  else if c = 60 then ascii "&lt;"
  else if c = 62 then ascii "&gt;"
  else [c]

/-- Modelled from the spec: the renderer's escaping of raw text. -/
def escape (t : List Nat) : List Nat := (t.map escapeByte).flatten

/-- Modelled from the spec: the document in reading order, as the block
parser and the inline scanner leave it for the renderer (sections 4.2 and
4.3): markup and finished inline output, raw text, and footnote
references. -/
inductive Item where
  | html (bytes : List Nat)
  | text (bytes : List Nat)
  | footref (label : List Nat)
  deriving DecidableEq

/-- Modelled from the spec: what the front end (line classifier, block
parser, inline scanner) makes of a source text: the main block sequence in
reading order and the footnote definitions in source order, each a label
with its rendered block content. -/
structure Parsed where
  body : List Item
  defs : List (List Nat × List Nat)

/-- Modelled from the spec: a front end, given the source text and whether
the footnote extension is enabled. -/
abbrev Front := List Nat → Bool → Parsed

/-- Modelled from the spec: case normalisation of one byte of a label. -/
def lowerByte (c : Nat) : Nat := if 65 ≤ c ∧ c ≤ 90 then c + 32 else c

/-- Modelled from the spec: the case-normalised label that keys the
footnote table (section 3). -/
def normLabel (l : List Nat) : List Nat := l.map lowerByte

/-- Modelled from the spec: an entry of the footnote table (section 3): the
normalised label, the definition's content and the reference-order counter,
assigned on first use. -/
structure Footnote where
  label : List Nat
  content : List Nat
  refIndex : Option Nat
  deriving DecidableEq

/-- Modelled from the spec: entering a definition in the footnote table; a
definition whose label is already there is discarded (first wins). -/
def insertDef (t : List Footnote) (d : List Nat × List Nat) : List Footnote :=
  if t.any (fun e => decide (e.label = normLabel d.1)) then t
  else t ++ [{ label := normLabel d.1, content := d.2, refIndex := none }]

/-- Modelled from the spec: the footnote table of a list of definitions. -/
def buildTable (defs : List (List Nat × List Nat)) : List Footnote :=
  defs.foldl insertDef []

/-- Modelled from the spec: a compiled document (section 3): the block
sequence and the footnote table. -/
structure Compiled where
  blocks : List Item
  footnotes : List Footnote

/-- Modelled from the spec: the inline output for a reference to footnote
number `k`. -/
def refLink (k : Nat) : List Nat :=
  ascii "<sup id=\"fnref:" ++ ascii (Nat.repr k) ++ ascii "\"><a href=\"#fn:" ++
    ascii (Nat.repr k) ++ ascii "\" rel=\"footnote\">" ++ ascii (Nat.repr k) ++
    ascii "</a></sup>"

/-- Modelled from the spec: the literal text an undefined footnote
reference degrades to, before escaping. -/
def literalRef (l : List Nat) : List Nat := ascii "[^" ++ l ++ ascii "]"

/-- Modelled from the spec: the renderer's state while it walks the body:
the footnote table with the counters assigned so far, the number of
footnotes referenced so far, and the output so far. -/
structure Walk where
  table : List Footnote
  count : Nat
  out : List Nat

/-- Modelled from the spec: recording index `k` against the entry of a
label. -/
def assign (t : List Footnote) (l : List Nat) (k : Nat) : List Footnote :=
  t.map (fun e => if e.label = l then { e with refIndex := some k } else e)

/-- Modelled from the spec: rendering one item (sections 4.3 and 4.4).  A
footnote reference to an undefined label is emitted as literal text; the
first reference to a defined label gets the next index, 1-based, and the
index is recorded in the table; a later reference uses the recorded
index. -/
def renderItem (w : Walk) : Item → Walk
  | Item.html b => { w with out := w.out ++ b }
  | Item.text b => { w with out := w.out ++ escape b }
  | Item.footref l =>
    match w.table.find? (fun e => decide (e.label = normLabel l)) with
    | none => { w with out := w.out ++ escape (literalRef l) }
    | some e =>
      match e.refIndex with
      | some k => { w with out := w.out ++ refLink k }
      | none =>
        { table := assign w.table (normLabel l) (w.count + 1)
          count := w.count + 1
          out := w.out ++ refLink (w.count + 1) }

/-- Modelled from the spec: rendering the main body against a footnote
table. -/
def renderBody (t : List Footnote) (items : List Item) : Walk :=
  items.foldl renderItem { table := t, count := 0, out := [] }

/-- Modelled from the spec: the entries of the footnote section, in
reference order: for each index from 1 to the number of referenced
footnotes, the entry that carries it.  Unreferenced definitions are left
out. -/
def footnoteSection (w : Walk) : List (Nat × Footnote) :=
  (List.range w.count).filterMap (fun i =>
    (w.table.find? (fun e => decide (e.refIndex = some (i + 1)))).map (fun e => (i + 1, e)))

/-- Modelled from the spec: one item of the footnote section: the
definition's content followed by a back-reference link to the point of
first use. -/
def noteItem (x : Nat × Footnote) : List Nat :=
  ascii "<li id=\"fn:" ++ ascii (Nat.repr x.1) ++ ascii "\">\n" ++ x.2.content ++
    ascii "<a href=\"#fnref:" ++ ascii (Nat.repr x.1) ++
    ascii "\" rev=\"footnote\">&#8617;</a></li>\n"

/-- Modelled from the spec: what opens the footnote section. -/
def sectionOpen : List Nat := ascii "<div class=\"footnotes\">\n<hr/>\n<ol>\n"

/-- Modelled from the spec: what closes the footnote section. -/
def sectionClose : List Nat := ascii "</ol>\n</div>\n"

/-- Modelled from the spec: the footnote section, an ordered list, present
only when a footnote was referenced. -/
def renderSection (entries : List (Nat × Footnote)) : List Nat :=
  if entries = [] then []
  else sectionOpen ++ (entries.map noteItem).flatten ++ sectionClose

/-- Modelled from the spec: `render` (section 4.4): the body, then the
footnote section. -/
def render (c : Compiled) : List Nat :=
  (renderBody c.footnotes c.blocks).out ++
    renderSection (footnoteSection (renderBody c.footnotes c.blocks))

/-- Modelled from the spec: a Document (section 3 and the design notes): the
address of its own copy of the source text and its phase, `none` for
Uncompiled and the compiled representation for Compiled. -/
structure Document where
  text : Ptr
  compiled : Option Compiled

/-- Modelled from the spec: the engine's heap: the highest address handed
out, the live Documents and the text buffers, each at its address. -/
structure Heap where
  top : Ptr
  docs : List (Ptr × Document)
  bufs : List (Ptr × List Nat)

/-- Modelled from the spec: whether a flag word enables the footnote
extension (`MKD_EXTRA_FOOTNOTE` is the bit 0x00200000 of Discount's
`markdown.h`). -/
def footnotesOn (flags : Nat) : Bool := decide (flags &&& 0x00200000 ≠ 0)

/-- Modelled from the spec: `mkd_string`: a new Uncompiled Document that
owns a copy of the `len` bytes at `buf` (no byte when `len` is negative). -/
def specString (buf : List Nat) (len : Int) (_flags : Nat) (s : Heap) : Ptr × Heap :=
  (s.top + 2,
    { top := s.top + 2
      docs := (s.top + 2, { text := s.top + 1, compiled := none }) :: s.docs
      bufs := (s.top + 1, buf.take len.toNat) :: s.bufs })

/-- Modelled from the spec: `mkd_compile` (`compile`, section 4.5): the
structural compile of the Document at `p`, which never fails on a Document;
on anything else it reports failure and changes nothing. -/
def specCompile (F : Front) (p : Ptr) (flags : Nat) (s : Heap) : Int × Heap :=
  match s.docs.lookup p with
  | none => (0, s)
  | some d =>
    let parsed := F ((s.bufs.lookup d.text).getD []) (footnotesOn flags)
    (1, { s with docs := s.docs.map (fun e =>
      if e.1 = p then
        (p, { d with compiled := some { blocks := parsed.body
                                        footnotes := buildTable parsed.defs } })
      else e) })

/-- Modelled from the spec: `mkd_document` (`render`, sections 4.5 and 6):
on a Compiled Document, the HTML in a fresh buffer that is handed to the
caller and not recorded in the Document, and its size; on anything else the
failure code, with nothing stored. -/
def specDocument (p : Ptr) (s : Heap) : DocumentResult Heap :=
  match s.docs.lookup p with
  | none => { ret := EOF, res := none, state := s }
  | some d =>
    match d.compiled with
    | none => { ret := EOF, res := none, state := s }
    | some c =>
      { ret := ((render c).length : Int)
        res := some (s.top + 1)
        state := { s with top := s.top + 1, bufs := (s.top + 1, render c) :: s.bufs } }

/-- Modelled from the spec: `mkd_cleanup`: releasing a Document and the
source copy it owns. -/
def specCleanup (p : Ptr) (s : Heap) : Heap :=
  match s.docs.lookup p with
  | none => s
  | some d =>
    { s with docs := s.docs.filter (fun e => decide (e.1 ≠ p))
             bufs := s.bufs.filter (fun e => decide (e.1 ≠ d.text)) }

/-- Modelled from the spec: the engine of the specification over a front
end `F`, behind the entry points of `markdown.h`. -/
def specEngine (F : Front) : Engine Heap where
  MKD_EXTRA_FOOTNOTE := 0x00200000
  mkd_string := specString
  mkd_compile := specCompile F
  mkd_document := specDocument
  mkd_cleanup := specCleanup
  load := fun s p => (s.bufs.lookup p).getD []

/-- The compiled representation the engine of the specification builds
from a source text with the footnote extension enabled. -/
def compiledOf (F : Front) (src : List Nat) : Compiled :=
  { blocks := (F src true).body, footnotes := buildTable (F src true).defs }

/-- The value a `Document *` designates in a heap of the engine of the
specification: the Document's source text and its phase, if there is a
Document at that address. -/
def docValue (s : Heap) (p : Ptr) : Option (List Nat × Option Compiled) :=
  (s.docs.lookup p).map (fun d => ((s.bufs.lookup d.text).getD [], d.compiled))

/-- The Document the bridge leaves in the heap of the engine of the
specification, for the source text `src`. -/
def bridgeDocument (F : Front) (src : List Nat) (s : Heap) : Document :=
  { text := s.top + 1, compiled := some (compiledOf F src) }

/-- The heap the bridge leaves over the engine of the specification, for
the source text `src`: the source copy at `top + 1`, the Document at
`top + 2` and the rendered text at `top + 3`. -/
def bridgeHeap (F : Front) (src : List Nat) (s : Heap) : Heap :=
  { top := s.top + 3,
    docs := (s.top + 2, bridgeDocument F src s) ::
      s.docs.map (fun e => if e.1 = s.top + 2 then (s.top + 2, bridgeDocument F src s) else e),
    bufs := (s.top + 3, render (compiledOf F src)) :: (s.top + 1, src) :: s.bufs }

/-- The entry of a normalised label in a footnote table. -/
def entry (t : List Footnote) (l : List Nat) : Option Footnote :=
  t.find? (fun e => decide (e.label = l))

/-- The reference-order counter recorded against a normalised label. -/
def noteIndex (t : List Footnote) (l : List Nat) : Option Nat :=
  (entry t l).bind (fun e => e.refIndex)

/-- The position of the first occurrence of a label in a list of labels
(the length of the list when there is none). -/
def firstIndex (l : List Nat) : List (List Nat) → Nat
  | [] => 0
  | x :: xs => if x = l then 0 else firstIndex l xs + 1

/-- The counters of a walk are consistent: every recorded counter lies
between 1 and the number of footnotes referenced so far, two entries with
the same counter have the same label, and no label occurs twice. -/
def WalkInv (w : Walk) : Prop :=
  (∀ e ∈ w.table, ∀ k, e.refIndex = some k → 1 ≤ k ∧ k ≤ w.count) ∧
  (∀ e ∈ w.table, ∀ e' ∈ w.table, ∀ k, e.refIndex = some k → e'.refIndex = some k →
    e.label = e'.label) ∧
  (w.table.map (fun e => e.label)).Nodup

/-- The walk of the renderer over the document the front end makes of a
source text, with the footnote extension enabled. -/
def walkOf (F : Front) (src : List Nat) : Walk :=
  renderBody (buildTable (F src true).defs) (F src true).body

/-- An input of 2^32 bytes: references to `b` then `a`, definitions of `a`
then `b`, and a last line of 2^32 - 27 letters `x`, NUL-terminated. -/
def hugeFootnoteInput : List Nat :=
  ascii "[^b] [^a]\n\n[^a]: A\n[^b]: B\n" ++ List.replicate 4294967269 120 ++ [0]

/-- An input of 2^32 bytes: a reference to the undefined label `missing`
and a second line of 2^32 - 11 letters `x`, NUL-terminated. -/
def hugeMissingInput : List Nat :=
  ascii "[^missing]\n" ++ List.replicate 4294967285 120 ++ [0]

/-- The heap before any call. -/
def emptyHeap : Heap := { top := 0, docs := [], bufs := [] }

/-- Every address the heap's Documents and buffers use has been handed out:
none lies above `top`. -/
def Heap.WF (s : Heap) : Prop :=
  (∀ e ∈ s.docs, e.1 ≤ s.top ∧ e.2.text ≤ s.top) ∧ (∀ e ∈ s.bufs, e.1 ≤ s.top)

/-! ### A front end for paragraphs and footnotes

The part of the specification's front end that the footnote extension
needs: paragraphs, footnote definitions and footnote references.  The other
block and inline constructs of sections 4.2 and 4.3 are not recognised and
stay paragraph text. -/

/-- Modelled from the spec: the source text as lines (section 4.1), split
at the newline byte. -/
def splitLines : List Nat → List (List Nat)
  | [] => [[]]
  | c :: cs =>
    if c = 10 then [] :: splitLines cs
    else
      match splitLines cs with
      | l :: ls => (c :: l) :: ls
      | [] => [[c]]

/-- Modelled from the spec: where the inline scanner stands: in plain text,
after a `[`, or inside the label of a `[^label]`. -/
inductive Mode where
  | plain
  | bracket
  | label (l : List Nat)
  deriving DecidableEq

/-- Modelled from the spec: the inline scanner's state (section 4.3): the
mode, the raw text not yet emitted and the items emitted. -/
structure Inline where
  mode : Mode
  acc : List Nat
  items : List Item

/-- Modelled from the spec: emitting pending raw text as a text item. -/
def flushText (acc : List Nat) (items : List Item) : List Item :=
  if acc = [] then items else items ++ [Item.text acc]

/-- Modelled from the spec: one byte of the single left-to-right pass of
the inline scanner, recognising `[^label]` with a non-empty label. -/
def inlineStep (st : Inline) (c : Nat) : Inline :=
  match st.mode with
  | Mode.plain =>
    if c = 91 then { st with mode := Mode.bracket }
    else { st with acc := st.acc ++ [c] }
  | Mode.bracket =>
    if c = 94 then { st with mode := Mode.label [] }
    else if c = 91 then { st with acc := st.acc ++ [91] }
    else { st with mode := Mode.plain, acc := st.acc ++ [91, c] }
  | Mode.label l =>
    if c = 93 then
      if l = [] then { st with mode := Mode.plain, acc := st.acc ++ [91, 94, 93] }
      else { mode := Mode.plain, acc := [], items := flushText st.acc st.items ++ [Item.footref l] }
    else if c = 91 then { st with mode := Mode.bracket, acc := st.acc ++ [91, 94] ++ l }
    else { st with mode := Mode.label (l ++ [c]) }

/-- Modelled from the spec: the end of the text: an unfinished `[` or
`[^label` is literal text. -/
def inlineEnd (st : Inline) : List Item :=
  match st.mode with
  | Mode.plain => flushText st.acc st.items
  | Mode.bracket => flushText (st.acc ++ [91]) st.items
  | Mode.label l => flushText (st.acc ++ [91, 94] ++ l) st.items

/-- Modelled from the spec: the inline scanner on the text of a paragraph
line; with the footnote extension disabled `[^label]` is literal text. -/
def scanInline (footnotes : Bool) (t : List Nat) : List Item :=
  if footnotes then inlineEnd (t.foldl inlineStep { mode := Mode.plain, acc := [], items := [] })
  else flushText t []

/-- Modelled from the spec: the footnote-definition marker (section 4.2):
`[^label]:` at column 0 with a non-empty label; the result is the label and
the rest of the line without its leading blanks. -/
def defMarker (line : List Nat) : Option (List Nat × List Nat) :=
  match line with
  | a :: b :: rest =>
    if a = 91 ∧ b = 94 then
      match rest.dropWhile (fun c => decide (c ≠ 93)) with
      | c :: d :: content =>
        if c = 93 ∧ d = 58 ∧ rest.takeWhile (fun c => decide (c ≠ 93)) ≠ [] then
          some (rest.takeWhile (fun c => decide (c ≠ 93)),
            content.dropWhile (fun c => decide (c = 32)))
        else none
      | _ => none
    else none
  | _ => none

/-- Modelled from the spec: a blank line. -/
def isBlank (line : List Nat) : Bool := line.all (fun c => decide (c = 32 ∨ c = 9))

/-- Modelled from the spec: a line indented by at least 4 columns. -/
def isIndented (line : List Nat) : Bool := decide (line.take 4 = [32, 32, 32, 32])

/-- Modelled from the spec: the block parser's state: whether a paragraph
is open, the open footnote definition (label and content so far), whether a
blank line was met inside it, the body so far and the definitions closed so
far. -/
structure Blocks where
  para : Bool
  note : Option (List Nat × List Nat)
  gap : Bool
  body : List Item
  defs : List (List Nat × List Nat)

/-- Modelled from the spec: closing the open paragraph. -/
def closePara (st : Blocks) : Blocks :=
  if st.para then { st with para := false, body := st.body ++ [Item.html (ascii "</p>\n")] }
  else st

/-- Modelled from the spec: closing the open footnote definition, which
goes to the definitions and not to the main block sequence. -/
def closeNote (st : Blocks) : Blocks :=
  match st.note with
  | some d => { st with note := none, gap := false, defs := st.defs ++ [d] }
  | none => { st with gap := false }

/-- Modelled from the spec: one line of the block parser (section 4.2).  A
definition marker opens a footnote definition; an indented line, also after
a blank one, continues the open definition; a blank line closes the
paragraph; any other line is paragraph text, and consecutive such lines
form one paragraph. -/
def blockStep (footnotes : Bool) (st : Blocks) (line : List Nat) : Blocks :=
  match (if footnotes then defMarker line else none) with
  | some d => { closeNote (closePara st) with note := some d }
  | none =>
    if isBlank line then
      { closePara st with gap := st.note.isSome }
    else
      match st.note, isIndented line with
      | some d, true =>
        { st with note := some (d.1, d.2 ++ (if st.gap then [10, 10] else [10]) ++ line.drop 4)
                  gap := false }
      | _, _ =>
        if st.para then
          { closeNote st with body := st.body ++ [Item.text [10]] ++ scanInline footnotes line }
        else
          { closeNote st with
              para := true
              body := st.body ++ [Item.html (ascii "<p>")] ++ scanInline footnotes line }

/-- Modelled from the spec: the block parser's state before the first
line. -/
def noBlocks : Blocks := { para := false, note := none, gap := false, body := [], defs := [] }

/-- Modelled from the spec: the front end for paragraphs and footnotes: the
lines are parsed top to bottom; a definition's content is rendered as one
paragraph of escaped text. -/
def plainFront : Front := fun text footnotes =>
  let st := closeNote (closePara ((splitLines text).foldl (blockStep footnotes) noBlocks))
  { body := st.body
    defs := st.defs.map (fun d => (d.1, ascii "<p>" ++ escape d.2 ++ ascii "</p>\n")) }

/-- The normalised labels of the footnote references of a body, in reading
order. -/
def refLabels : List Item → List (List Nat)
  | [] => []
  | Item.footref l :: rest => normLabel l :: refLabels rest
  | _ :: rest => refLabels rest

/-- The normalised labels of a list of footnote definitions, in source
order. -/
def defLabels (defs : List (List Nat × List Nat)) : List (List Nat) :=
  defs.map (fun d => normLabel d.1)

/-- The content of the first definition of a normalised label. -/
def defContent (defs : List (List Nat × List Nat)) (l : List Nat) : List Nat :=
  ((defs.find? (fun d => decide (normLabel d.1 = l))).map (fun d => d.2)).getD []

/-- An engine with no memory left: no Document is ever created, so compile
and render fail. -/
def exhaustedEngine : Engine Unit where
  MKD_EXTRA_FOOTNOTE := 0x00200000
  mkd_string := fun _ _ _ s => (NULL, s)
  mkd_compile := fun _ _ s => (0, s)
  mkd_document := fun _ s => { ret := EOF, res := none, state := s }
  mkd_cleanup := fun _ s => s
  load := fun _ _ => []

set_option maxRecDepth 100000

/-! ## Arithmetic of the length argument -/

theorem strlen_eq_length_cstr (m : List Nat) : strlen m = (cstr m).length := by
  induction m with
  | nil => rfl
  | cons c cs ih =>
    by_cases h : c = 0
    · simp [strlen, cstr, h]
    · simp [strlen, cstr, h, ih]

theorem take_cstr (m : List Nat) (k : Nat) (h : k ≤ strlen m) :
    m.take k = (cstr m).take k := by
  induction m generalizing k with
  | nil => simp [cstr]
  | cons c cs ih =>
    cases k with
    | zero => simp
    | succ k =>
      by_cases hc : c = 0
      · simp [strlen, hc] at h
      · simp only [strlen, hc, if_false] at h
        simp only [cstr, hc, if_false, List.take_succ_cons]
        rw [ih k (by omega)]

theorem toInt_of_lt (n : Nat) (h : n < 2 ^ 31) : toInt n = (n : Int) := by
  have h1 : n % 2 ^ 32 = n := Nat.mod_eq_of_lt (by omega)
  unfold toInt
  rw [h1, if_pos h]

theorem toInt_range (n : Nat) : -(2 ^ 31 : Int) ≤ toInt n ∧ toInt n < 2 ^ 31 := by
  have h1 : n % 2 ^ 32 < 2 ^ 32 := Nat.mod_lt _ (by norm_num)
  unfold toInt
  split <;> constructor <;> omega

theorem toInt_congr (n : Nat) : ((n : Int) - toInt n) % 2 ^ 32 = 0 := by
  have h1 := Nat.mod_add_div n (2 ^ 32)
  unfold toInt
  split <;> omega

theorem toInt_le (n : Nat) : toInt n ≤ (n : Int) := by
  have h1 : n % 2 ^ 32 ≤ n := Nat.mod_le _ _
  unfold toInt
  split <;> omega

theorem toInt_lt_of_ge (n : Nat) (h : 2 ^ 31 ≤ n) : toInt n < (n : Int) := by
  have h1 : n % 2 ^ 32 ≤ n := Nat.mod_le _ _
  have h2 := Nat.mod_add_div n (2 ^ 32)
  unfold toInt
  split <;> omega

theorem toInt_toNat_le (n : Nat) : (toInt n).toNat ≤ n := by
  have := toInt_le n
  omega

/-! ## The bridge -/

theorem markdownToHTML_fst (E : Engine σ) (m : List Nat) (s : σ) :
    (markdownToHTML E m s).1 =
      if (documentCall E m s).ret = 0 then NULL else (documentCall E m s).res.getD NULL := by
  unfold markdownToHTML documentCall
  cases h : (E.mkd_document (E.mkd_string m (toInt (strlen m)) 0 s).1
      (E.mkd_compile (E.mkd_string m (toInt (strlen m)) 0 s).1 E.MKD_EXTRA_FOOTNOTE
        (E.mkd_string m (toInt (strlen m)) 0 s).2).2).res <;> simp [h]

theorem markdownToHTML_snd (E : Engine σ) (m : List Nat) (s : σ) :
    (markdownToHTML E m s).2 = (documentCall E m s).state := rfl

theorem traced_fst (E : Engine σ) (m : List Nat) (s : σ) (log : List Call) :
    (markdownToHTML (traced E) m (s, log)).1 = (markdownToHTML E m s).1 := rfl

theorem traced_state (E : Engine σ) (m : List Nat) (s : σ) (log : List Call) :
    (markdownToHTML (traced E) m (s, log)).2.1 = (markdownToHTML E m s).2 := rfl

theorem traced_log (E : Engine σ) (m : List Nat) (s : σ) (log : List Call) :
    (markdownToHTML (traced E) m (s, log)).2.2 =
      log ++ [Call.mkd_string m (toInt (strlen m)) 0,
        Call.mkd_compile (E.mkd_string m (toInt (strlen m)) 0 s).1 E.MKD_EXTRA_FOOTNOTE,
        Call.mkd_document (E.mkd_string m (toInt (strlen m)) 0 s).1] := by
  simp [markdownToHTML, traced]

/-- C1, as amended: `markdownToHTML` returns `NULL` whenever `mkd_document`
returns 0, so also for a successful render whose output is empty; whenever
`mkd_document` returns a non-zero value and stores a non-null buffer,
`markdownToHTML` returns that buffer and not `NULL`. -/
theorem markdownToHTML_null_iff_size (E : Engine σ) (m : List Nat) (s : σ) :
    ((documentCall E m s).ret = 0 → (markdownToHTML E m s).1 = NULL) ∧
    (∀ p, (documentCall E m s).ret ≠ 0 → (documentCall E m s).res = some p → p ≠ NULL →
      (markdownToHTML E m s).1 = p ∧ (markdownToHTML E m s).1 ≠ NULL) := by
  refine ⟨fun h => ?_, fun p hret hres hp => ?_⟩
  · rw [markdownToHTML_fst, if_pos h]
  · have : (markdownToHTML E m s).1 = p := by
      rw [markdownToHTML_fst, if_neg hret, hres]; rfl
    exact ⟨this, this ▸ hp⟩

/-- C1, counterexample: on the empty input the engine of the specification
compiles and renders successfully, `mkd_document` reports size 0 and stores
a non-null buffer holding the empty string, and `markdownToHTML` returns
`NULL`. -/
theorem empty_render_returns_null :
    0 ≤ (documentCall (specEngine plainFront) [0] emptyHeap).ret ∧
    (documentCall (specEngine plainFront) [0] emptyHeap).res = some 3 ∧
    (3 : Ptr) ≠ NULL ∧
    (specEngine plainFront).load (documentCall (specEngine plainFront) [0] emptyHeap).state 3
      = [] ∧
    (markdownToHTML (specEngine plainFront) [0] emptyHeap).1 = NULL := by
  decide

/-- C1, an instance of the amended statement: on the input `hi` the engine
of the specification renders 10 bytes and the bridge returns the buffer. -/
theorem markdownToHTML_null_iff_size_witness :
    (documentCall (specEngine plainFront) (ascii "hi" ++ [0]) emptyHeap).ret ≠ 0 ∧
    (documentCall (specEngine plainFront) (ascii "hi" ++ [0]) emptyHeap).res = some 3 ∧
    (markdownToHTML (specEngine plainFront) (ascii "hi" ++ [0]) emptyHeap).1 = 3 ∧
    (markdownToHTML (specEngine plainFront) (ascii "hi" ++ [0]) emptyHeap).1 ≠ NULL :=
  ⟨by decide, by decide,
    (markdownToHTML_null_iff_size (specEngine plainFront) (ascii "hi" ++ [0]) emptyHeap).2 3
      (by decide) (by decide) (by decide)⟩

/-- C2: if `mkd_document` returns its failure code `EOF` and leaves the
output pointer unwritten, `markdownToHTML` returns `NULL`. -/
theorem markdownToHTML_failure (E : Engine σ) (m : List Nat) (s : σ)
    (hret : (documentCall E m s).ret = EOF) (hres : (documentCall E m s).res = none) :
    (markdownToHTML E m s).1 = NULL := by
  rw [markdownToHTML_fst, hret, hres]
  simp [EOF]

/-- C2, witness: an engine that is out of memory creates no Document, its
render fails, and the bridge returns `NULL`. -/
theorem markdownToHTML_failure_witness :
    (documentCall exhaustedEngine (ascii "hi" ++ [0]) ()).ret = EOF ∧
    (documentCall exhaustedEngine (ascii "hi" ++ [0]) ()).res = none ∧
    (markdownToHTML exhaustedEngine (ascii "hi" ++ [0]) ()).1 = NULL :=
  ⟨rfl, rfl, markdownToHTML_failure exhaustedEngine (ascii "hi" ++ [0]) () rfl rfl⟩

/-- C3: when `mkd_document` returns a non-zero value, the pointer
`markdownToHTML` returns is the pointer `mkd_document` stored for the
document made by `mkd_string (s, (int)strlen(s), 0)` and compiled with
`MKD_EXTRA_FOOTNOTE`, and the bridge leaves the engine's state, hence every
byte of that buffer, as `mkd_document` left it. -/
theorem markdownToHTML_returns_stored (E : Engine σ) (m : List Nat) (s : σ) (p : Ptr)
    (hret : (E.mkd_document (E.mkd_string m (toInt (strlen m)) 0 s).1
      (E.mkd_compile (E.mkd_string m (toInt (strlen m)) 0 s).1 E.MKD_EXTRA_FOOTNOTE
        (E.mkd_string m (toInt (strlen m)) 0 s).2).2).ret ≠ 0)
    (hres : (E.mkd_document (E.mkd_string m (toInt (strlen m)) 0 s).1
      (E.mkd_compile (E.mkd_string m (toInt (strlen m)) 0 s).1 E.MKD_EXTRA_FOOTNOTE
        (E.mkd_string m (toInt (strlen m)) 0 s).2).2).res = some p) :
    (markdownToHTML E m s).1 = p ∧
    (markdownToHTML E m s).2 = (E.mkd_document (E.mkd_string m (toInt (strlen m)) 0 s).1
      (E.mkd_compile (E.mkd_string m (toInt (strlen m)) 0 s).1 E.MKD_EXTRA_FOOTNOTE
        (E.mkd_string m (toInt (strlen m)) 0 s).2).2).state ∧
    E.load (markdownToHTML E m s).2 (markdownToHTML E m s).1 =
      E.load (E.mkd_document (E.mkd_string m (toInt (strlen m)) 0 s).1
        (E.mkd_compile (E.mkd_string m (toInt (strlen m)) 0 s).1 E.MKD_EXTRA_FOOTNOTE
          (E.mkd_string m (toInt (strlen m)) 0 s).2).2).state p := by
  have h1 : (markdownToHTML E m s).1 = p := by
    rw [markdownToHTML_fst]
    unfold documentCall
    rw [if_neg hret, hres]; rfl
  refine ⟨h1, rfl, ?_⟩
  rw [h1]; rfl

/-- C3, witness: on the input `hi` the engine of the specification stores
the buffer at address 3, which holds the rendered paragraph, and the bridge
returns address 3 with that text. -/
theorem markdownToHTML_returns_stored_witness :
    (markdownToHTML (specEngine plainFront) (ascii "hi" ++ [0]) emptyHeap).1 = 3 ∧
    (specEngine plainFront).load
      (markdownToHTML (specEngine plainFront) (ascii "hi" ++ [0]) emptyHeap).2 3
      = ascii "<p>hi</p>\n" :=
  ⟨(markdownToHTML_returns_stored (specEngine plainFront) (ascii "hi" ++ [0]) emptyHeap 3
      (by decide) (by decide)).1, by decide⟩

/-- C4: whatever the input, the engine's state and the calls made before,
the calls the bridge adds contain a `mkd_string` call on the input and a
`mkd_compile` call; every `mkd_string` call among them has flag argument 0
and every `mkd_compile` call has flag argument `MKD_EXTRA_FOOTNOTE`. -/
theorem markdownToHTML_flags (E : Engine σ) (m : List Nat) (s : σ) (log : List Call) :
    ∃ added : List Call,
      (markdownToHTML (traced E) m (s, log)).2.2 = log ++ added ∧
      (∃ len, Call.mkd_string m len 0 ∈ added) ∧
      (∃ page, Call.mkd_compile page E.MKD_EXTRA_FOOTNOTE ∈ added) ∧
      (∀ buf len flags, Call.mkd_string buf len flags ∈ added → flags = 0) ∧
      (∀ page flags, Call.mkd_compile page flags ∈ added → flags = E.MKD_EXTRA_FOOTNOTE) := by
  refine ⟨_, traced_log E m s log, ⟨toInt (strlen m), by simp⟩,
    ⟨(E.mkd_string m (toInt (strlen m)) 0 s).1, by simp⟩, ?_, ?_⟩
  · intro buf len flags h
    simp at h
    exact h.2.2
  · intro page flags h
    simp at h
    exact h.2

/-- C9: the length the engine receives is `strlen` of the input reduced
modulo 2^32 into the range of a 32-bit signed `int`: it equals the byte
length when that is below 2^31, and otherwise differs from it, being
negative or smaller. -/
theorem markdownToHTML_length_argument (E : Engine σ) (m : List Nat) (s : σ) :
    ∃ len : Int,
      (markdownToHTML (traced E) m (s, [])).2.2.head? = some (Call.mkd_string m len 0) ∧
      -(2 ^ 31 : Int) ≤ len ∧ len < 2 ^ 31 ∧ ((strlen m : Int) - len) % 2 ^ 32 = 0 ∧
      (strlen m < 2 ^ 31 → len = (strlen m : Int)) ∧
      (2 ^ 31 ≤ strlen m → len ≠ (strlen m : Int) ∧ (len < 0 ∨ len < (strlen m : Int))) := by
  refine ⟨toInt (strlen m), ?_, (toInt_range _).1, (toInt_range _).2, toInt_congr _,
    toInt_of_lt _, fun h => ?_⟩
  · rw [traced_log]; rfl
  · have := toInt_lt_of_ge _ h
    exact ⟨by omega, Or.inr this⟩

/-- C10: on every input and from every state the bridge makes exactly three
engine calls, `mkd_string`, `mkd_compile`, `mkd_document` in this order; the
last two get the value `mkd_string` returned, whatever it is; no call is
`mkd_cleanup`; the result is a function of what `mkd_document` returned and
stored, and it does not change when the value `mkd_compile` returns is
replaced by any other. -/
theorem markdownToHTML_calls (E : Engine σ) (m : List Nat) (s : σ)
    (c : Ptr → Nat → σ → Int) :
    (markdownToHTML (traced E) m (s, [])).2.2 =
      [Call.mkd_string m (toInt (strlen m)) 0,
        Call.mkd_compile (E.mkd_string m (toInt (strlen m)) 0 s).1 E.MKD_EXTRA_FOOTNOTE,
        Call.mkd_document (E.mkd_string m (toInt (strlen m)) 0 s).1] ∧
    (∀ p, Call.mkd_cleanup p ∉ (markdownToHTML (traced E) m (s, [])).2.2) ∧
    (markdownToHTML (traced E) m (s, [])).1 = (markdownToHTML E m s).1 ∧
    (markdownToHTML (traced E) m (s, [])).2.1 = (markdownToHTML E m s).2 ∧
    markdownToHTML (withCompileStatus E c) m s = markdownToHTML E m s ∧
    (markdownToHTML E m s).1 =
      (if (documentCall E m s).ret = 0 then NULL else (documentCall E m s).res.getD NULL) := by
  refine ⟨by rw [traced_log]; rfl, fun p => by rw [traced_log]; simp, rfl, rfl, rfl,
    markdownToHTML_fst E m s⟩

/-! ## Determinism -/

theorem textAt_result (E : Engine σ) (st : σ) (ret : Int) (res : Option Ptr) :
    textAt E st (if ret = 0 then NULL else res.getD NULL) =
      if ret = 0 then none else (res.map (textAt E st)).getD none := by
  cases res <;> by_cases h : ret = 0 <;> simp [textAt, h]

/-- C6: for an engine whose operations are functions of their arguments,
two calls whose inputs have the same bytes up to the first NUL, made from
any two states, both return `NULL` or both return strings with the same
contents. -/
theorem markdownToHTML_deterministic (E : Engine σ) (m₁ m₂ : List Nat) (s₁ s₂ : σ)
    (hE : IsFunctional E) (hm : cstr m₁ = cstr m₂) :
    textAt E (markdownToHTML E m₁ s₁).2 (markdownToHTML E m₁ s₁).1 =
      textAt E (markdownToHTML E m₂ s₂).2 (markdownToHTML E m₂ s₂).1 := by
  obtain ⟨δ, doc, fs, fc, fd, h1, h2, h3⟩ := hE
  have hn : strlen m₁ = strlen m₂ := by
    rw [strlen_eq_length_cstr, strlen_eq_length_cstr, hm]
  have ht : m₁.take (toInt (strlen m₁)).toNat = m₂.take (toInt (strlen m₂)).toNat := by
    rw [take_cstr m₁ _ (toInt_toNat_le _), take_cstr m₂ _ (toInt_toNat_le _), hm, hn]
  have key : ∀ (m : List Nat) (s : σ),
      ((documentCall E m s).ret,
        (documentCall E m s).res.map (textAt E (documentCall E m s).state)) =
        fd (fc (fs (m.take (toInt (strlen m)).toNat) (toInt (strlen m)) 0)
          E.MKD_EXTRA_FOOTNOTE) := by
    intro m s
    unfold documentCall
    simp only []
    rw [h3, h2, h1]
  have e1 := key m₁ s₁
  have e2 := key m₂ s₂
  rw [ht, hn] at e1
  have e := e1.trans e2.symm
  simp only [Prod.mk.injEq] at e
  rw [markdownToHTML_fst, markdownToHTML_fst, markdownToHTML_snd, markdownToHTML_snd,
    textAt_result, textAt_result, e.1, e.2]

/-! ## The engine of the specification behind the bridge -/

theorem lookup_map_update (p : Ptr) (nd : Document) (l : List (Ptr × Document)) :
    (l.map (fun e => if e.1 = p then (p, nd) else e)).lookup p =
      (l.lookup p).map (fun _ => nd) := by
  induction l with
  | nil => rfl
  | cons e l ih =>
    obtain ⟨k, d⟩ := e
    rw [List.map_cons]
    by_cases h : k = p
    · have hb : (p == k) = true := by simp [h]
      rw [if_pos h]
      simp [List.lookup, hb]
    · have hb : (p == k) = false := by simpa using fun hh => h hh.symm
      rw [if_neg h]
      simp [List.lookup, hb, ih]

theorem specEngine_functional (F : Front) : IsFunctional (specEngine F) := by
  refine ⟨Option (List Nat × Option Compiled), docValue,
    fun src _ _ => some (src, none),
    fun v flags => v.map (fun x => (x.1, some
      { blocks := (F x.1 (footnotesOn flags)).body
        footnotes := buildTable (F x.1 (footnotesOn flags)).defs })),
    fun v => match v with
      | some (_, some c) => (((render c).length : Int), some (some (render c)))
      | _ => (EOF, none),
    ?_, ?_, ?_⟩
  · intro buf len flags s
    simp [specEngine, specString, docValue, List.lookup]
  · intro p flags s
    simp only [specEngine, specCompile, docValue]
    cases h : s.docs.lookup p with
    | none => simp [h]
    | some d => simp [h, lookup_map_update]
  · intro p s
    simp only [specEngine, specDocument, docValue]
    cases h : s.docs.lookup p with
    | none => simp
    | some d =>
      cases hc : d.compiled with
      | none => simp [hc]
      | some c => simp [hc, textAt, NULL, List.lookup]

/-- C6, witness: the engine of the specification is a function of its
arguments; the inputs `hi` followed by NUL and other bytes, and `hi`
followed by NUL, given from the empty heap and from the heap an earlier
call left, yield the same text. -/
theorem markdownToHTML_deterministic_witness :
    IsFunctional (specEngine plainFront) ∧
    cstr (ascii "hi" ++ [0] ++ ascii "junk") = cstr (ascii "hi" ++ [0]) ∧
    textAt (specEngine plainFront)
      (markdownToHTML (specEngine plainFront) (ascii "hi" ++ [0] ++ ascii "junk") emptyHeap).2
      (markdownToHTML (specEngine plainFront) (ascii "hi" ++ [0] ++ ascii "junk") emptyHeap).1 =
    textAt (specEngine plainFront)
      (markdownToHTML (specEngine plainFront) (ascii "hi" ++ [0])
        (markdownToHTML (specEngine plainFront) (ascii "x" ++ [0]) emptyHeap).2).2
      (markdownToHTML (specEngine plainFront) (ascii "hi" ++ [0])
        (markdownToHTML (specEngine plainFront) (ascii "x" ++ [0]) emptyHeap).2).1 :=
  ⟨specEngine_functional plainFront, by decide,
    markdownToHTML_deterministic (specEngine plainFront) _ _ _ _
      (specEngine_functional plainFront) (by decide)⟩

theorem footnotesOn_flag : footnotesOn 0x00200000 = true := by decide

theorem spec_documentCall (F : Front) (m : List Nat) (s : Heap) :
    documentCall (specEngine F) m s =
      { ret := ((render (compiledOf F (m.take (toInt (strlen m)).toNat))).length : Int),
        res := some (s.top + 3),
        state := bridgeHeap F (m.take (toInt (strlen m)).toNat) s } := by
  simp [documentCall, specEngine, specString, specCompile, specDocument, List.lookup,
    footnotesOn_flag, compiledOf, bridgeHeap, bridgeDocument]

/-- The text the bridge returns over the engine of the specification: the
rendering of the first `(int)strlen` bytes of the input, unless that
rendering is empty. -/
theorem spec_markdownToHTML (F : Front) (m : List Nat) (s : Heap)
    (h : render (compiledOf F (m.take (toInt (strlen m)).toNat)) ≠ []) :
    (markdownToHTML (specEngine F) m s).1 = s.top + 3 ∧
    (specEngine F).load (markdownToHTML (specEngine F) m s).2 (markdownToHTML (specEngine F) m s).1
      = render (compiledOf F (m.take (toInt (strlen m)).toNat)) := by
  have h1 : (markdownToHTML (specEngine F) m s).1 = s.top + 3 := by
    rw [markdownToHTML_fst, spec_documentCall]
    simp [h]
  refine ⟨h1, ?_⟩
  rw [h1, markdownToHTML_snd, spec_documentCall]
  simp [specEngine, bridgeHeap, List.lookup]

/-- The bridge keeps the heap of the engine of the specification
well-formed, so every heap reached from the empty one by calls of the bridge
is well-formed. -/
theorem markdownToHTML_preserves_WF (F : Front) (m : List Nat) (s : Heap) (hwf : s.WF) :
    (markdownToHTML (specEngine F) m s).2.WF := by
  rw [markdownToHTML_snd, spec_documentCall]
  constructor
  · intro e he
    simp only [bridgeHeap, List.mem_cons, List.mem_map] at he
    rcases he with rfl | ⟨e0, he0, rfl⟩
    · simp [bridgeHeap, bridgeDocument]
    · by_cases hk : e0.1 = s.top + 2
      · simp [hk, bridgeHeap, bridgeDocument]
      · have := hwf.1 e0 he0
        simp only [hk, if_false, bridgeHeap]
        exact ⟨Nat.le_trans this.1 (Nat.le_add_right _ _),
          Nat.le_trans this.2 (Nat.le_add_right _ _)⟩
  · intro e he
    simp only [bridgeHeap, List.mem_cons] at he
    rcases he with rfl | rfl | he
    · simp [bridgeHeap]
    · simp [bridgeHeap]
    · exact Nat.le_trans (hwf.2 e he) (Nat.le_add_right _ _)

/-- C5: over the engine of the specification, from a heap whose addresses
were all handed out by the allocator, when the bridge returns a non-null
pointer the Document it created is still live, and neither the address nor
the source-text field of any live Document is the returned buffer. -/
theorem returned_buffer_unaliased (F : Front) (m : List Nat) (s : Heap) (hwf : s.WF)
    (hnn : (markdownToHTML (specEngine F) m s).1 ≠ NULL) :
    (∃ d, (((specEngine F).mkd_string m (toInt (strlen m)) 0 s).1, d) ∈
      (markdownToHTML (specEngine F) m s).2.docs) ∧
    ∀ e ∈ (markdownToHTML (specEngine F) m s).2.docs,
      e.1 ≠ (markdownToHTML (specEngine F) m s).1 ∧
      e.2.text ≠ (markdownToHTML (specEngine F) m s).1 := by
  have h1 : (markdownToHTML (specEngine F) m s).1 = s.top + 3 := by
    rw [markdownToHTML_fst, spec_documentCall] at hnn ⊢
    by_cases h0 : ((render (compiledOf F (m.take (toInt (strlen m)).toNat))).length : Int) = 0
    · simp [h0] at hnn
    · simp [h0]
  rw [h1, markdownToHTML_snd, spec_documentCall]
  refine ⟨⟨_, List.mem_cons_self _ _⟩, ?_⟩
  intro e he
  simp only [bridgeHeap, List.mem_cons, List.mem_map] at he
  rcases he with rfl | ⟨e0, he0, rfl⟩
  · simp [bridgeDocument]
  · by_cases hk : e0.1 = s.top + 2
    · simp [hk, bridgeDocument]
    · have := hwf.1 e0 he0
      simp only [hk, if_false]
      constructor
      · intro hh
        have h3 := this.1
        rw [hh] at h3
        simp at h3
      · intro hh
        have h3 := this.2
        rw [hh] at h3
        simp at h3

/-- C5, witness: from the empty heap, on the input `hi`, the bridge returns
address 3; the Document sits at address 2 and its source text at
address 1. -/
theorem returned_buffer_unaliased_witness :
    emptyHeap.WF ∧
    (markdownToHTML (specEngine plainFront) (ascii "hi" ++ [0]) emptyHeap).1 ≠ NULL ∧
    ∀ e ∈ (markdownToHTML (specEngine plainFront) (ascii "hi" ++ [0]) emptyHeap).2.docs,
      e.1 ≠ (markdownToHTML (specEngine plainFront) (ascii "hi" ++ [0]) emptyHeap).1 ∧
      e.2.text ≠ (markdownToHTML (specEngine plainFront) (ascii "hi" ++ [0]) emptyHeap).1 :=
  ⟨⟨by simp [emptyHeap], by simp [emptyHeap]⟩, by decide,
    (returned_buffer_unaliased plainFront (ascii "hi" ++ [0]) emptyHeap
      ⟨by simp [emptyHeap], by simp [emptyHeap]⟩ (by decide)).2⟩

/-! ## The footnote table -/

theorem entry_mem {t : List Footnote} {l : List Nat} {e : Footnote} (h : entry t l = some e) :
    e ∈ t ∧ e.label = l := by
  unfold entry at h
  exact ⟨List.mem_of_find?_eq_some h, by simpa using List.find?_some h⟩

theorem entry_of_mem {t : List Footnote} {e : Footnote}
    (hn : (t.map (fun e => e.label)).Nodup) (he : e ∈ t) : entry t e.label = some e := by
  induction t with
  | nil => cases he
  | cons x t ih =>
    rw [List.map_cons, List.nodup_cons] at hn
    unfold entry
    rw [List.find?_cons]
    by_cases hx : x.label = e.label
    · rcases List.mem_cons.1 he with rfl | h'
      · simp
      · exact absurd (hx ▸ List.mem_map_of_mem (fun e => e.label) h') hn.1
    · rcases List.mem_cons.1 he with rfl | h'
      · exact absurd rfl hx
      · simp only [hx, decide_False]
        exact ih hn.2 h'

theorem entry_assign (t : List Footnote) (l l' : List Nat) (k : Nat) :
    entry (assign t l k) l' =
      (entry t l').map (fun e => if e.label = l then { e with refIndex := some k } else e) := by
  induction t with
  | nil => rfl
  | cons x t ih =>
    unfold entry assign at ih ⊢
    rw [List.map_cons, List.find?_cons, List.find?_cons]
    have hl : (if x.label = l then { x with refIndex := some k } else x).label = x.label := by
      split <;> rfl
    rw [hl]
    by_cases hx : x.label = l'
    · simp [hx]
    · simp only [hx, decide_False]
      exact ih

theorem assign_labels (t : List Footnote) (l : List Nat) (k : Nat) :
    (assign t l k).map (fun e => e.label) = t.map (fun e => e.label) := by
  unfold assign
  rw [List.map_map]
  apply List.map_congr_left
  intro e _
  simp only [Function.comp]
  split <;> rfl

theorem noteIndex_assign_same {t : List Footnote} {l : List Nat} {e : Footnote} (k : Nat)
    (h : entry t l = some e) : noteIndex (assign t l k) l = some k := by
  have := (entry_mem h).2
  simp [noteIndex, entry_assign, h, this]

theorem noteIndex_assign_other (t : List Footnote) {l l' : List Nat} (k : Nat) (h : l' ≠ l) :
    noteIndex (assign t l k) l' = noteIndex t l' := by
  unfold noteIndex
  rw [entry_assign]
  cases he : entry t l' with
  | none => rfl
  | some e =>
    have := (entry_mem he).2
    simp [this, h]

theorem entry_insertDef (t : List Footnote) (d : List Nat × List Nat) (l : List Nat) :
    entry (insertDef t d) l =
      (entry t l).or (if normLabel d.1 = l then
        some { label := normLabel d.1, content := d.2, refIndex := none } else none) := by
  unfold insertDef
  split
  · rename_i h
    by_cases hl : normLabel d.1 = l
    · subst hl
      have : (entry t (normLabel d.1)).isSome = true := by
        unfold entry
        rw [List.find?_isSome]
        simpa using h
      obtain ⟨e, he⟩ := Option.isSome_iff_exists.1 this
      simp [he]
    · simp [hl]
  · unfold entry
    rw [List.find?_append]
    by_cases hl : normLabel d.1 = l <;> simp [List.find?_cons, hl]

theorem entry_foldl_insertDef (defs : List (List Nat × List Nat)) (t : List Footnote)
    (l : List Nat) :
    entry (defs.foldl insertDef t) l =
      (entry t l).or ((defs.find? (fun d => decide (normLabel d.1 = l))).map
        (fun d => { label := l, content := d.2, refIndex := none })) := by
  induction defs generalizing t with
  | nil => simp
  | cons d defs ih =>
    rw [List.foldl_cons, ih, entry_insertDef, List.find?_cons]
    by_cases hl : normLabel d.1 = l
    · subst hl
      cases entry t (normLabel d.1) <;> simp
    · cases entry t l <;> simp [hl]

theorem entry_buildTable (defs : List (List Nat × List Nat)) (l : List Nat) :
    entry (buildTable defs) l =
      (defs.find? (fun d => decide (normLabel d.1 = l))).map
        (fun d => { label := l, content := d.2, refIndex := none }) := by
  unfold buildTable
  rw [entry_foldl_insertDef]
  rfl

theorem insertDef_inv (t : List Footnote) (d : List Nat × List Nat)
    (h : (∀ e ∈ t, e.refIndex = none) ∧ (t.map (fun e => e.label)).Nodup) :
    (∀ e ∈ insertDef t d, e.refIndex = none) ∧
      ((insertDef t d).map (fun e => e.label)).Nodup := by
  unfold insertDef
  split
  · exact h
  · rename_i hn
    constructor
    · intro e he
      rcases List.mem_append.1 he with h' | h'
      · exact h.1 e h'
      · simp at h'
        rw [h']
    · rw [List.map_append, List.nodup_append]
      refine ⟨h.2, by simp, ?_⟩
      intro a ha hb
      simp only [List.map_cons, List.map_nil, List.mem_singleton] at hb
      obtain ⟨e, he, rfl⟩ := List.mem_map.1 ha
      apply hn
      simp only [List.any_eq_true, decide_eq_true_eq]
      exact ⟨e, he, hb⟩

theorem foldl_insertDef_inv (defs : List (List Nat × List Nat)) (t : List Footnote)
    (h : (∀ e ∈ t, e.refIndex = none) ∧ (t.map (fun e => e.label)).Nodup) :
    (∀ e ∈ defs.foldl insertDef t, e.refIndex = none) ∧
      ((defs.foldl insertDef t).map (fun e => e.label)).Nodup := by
  induction defs generalizing t with
  | nil => exact h
  | cons d defs ih => exact ih _ (insertDef_inv t d h)

theorem buildTable_inv (defs : List (List Nat × List Nat)) :
    (∀ e ∈ buildTable defs, e.refIndex = none) ∧
      ((buildTable defs).map (fun e => e.label)).Nodup :=
  foldl_insertDef_inv defs [] ⟨by simp, by simp⟩

/-! ## One step of the renderer's walk -/

theorem renderItem_fresh {w : Walk} {l : List Nat} {e : Footnote}
    (h : entry w.table (normLabel l) = some e) (hr : e.refIndex = none) :
    renderItem w (Item.footref l) =
      { table := assign w.table (normLabel l) (w.count + 1), count := w.count + 1,
        out := w.out ++ refLink (w.count + 1) } := by
  unfold entry at h
  simp only [renderItem, h, hr]

theorem renderItem_seen {w : Walk} {l : List Nat} {e : Footnote} {k : Nat}
    (h : entry w.table (normLabel l) = some e) (hr : e.refIndex = some k) :
    renderItem w (Item.footref l) = { w with out := w.out ++ refLink k } := by
  unfold entry at h
  simp only [renderItem, h, hr]

theorem renderItem_undefined {w : Walk} {l : List Nat}
    (h : entry w.table (normLabel l) = none) :
    renderItem w (Item.footref l) = { w with out := w.out ++ escape (literalRef l) } := by
  unfold entry at h
  simp only [renderItem, h]

theorem renderItem_cases (w : Walk) (i : Item) :
    ((renderItem w i).table = w.table ∧ (renderItem w i).count = w.count) ∨
    (∃ l e, i = Item.footref l ∧ entry w.table (normLabel l) = some e ∧ e.refIndex = none ∧
      (renderItem w i).table = assign w.table (normLabel l) (w.count + 1) ∧
      (renderItem w i).count = w.count + 1) := by
  cases i with
  | html b => exact Or.inl ⟨rfl, rfl⟩
  | text b => exact Or.inl ⟨rfl, rfl⟩
  | footref l =>
    cases h : entry w.table (normLabel l) with
    | none => rw [renderItem_undefined h]; exact Or.inl ⟨rfl, rfl⟩
    | some e =>
      cases hr : e.refIndex with
      | some k => rw [renderItem_seen h hr]; exact Or.inl ⟨rfl, rfl⟩
      | none => rw [renderItem_fresh h hr]; exact Or.inr ⟨l, e, rfl, h, hr, rfl, rfl⟩

theorem renderItem_out (w : Walk) (i : Item) : ∃ x, (renderItem w i).out = w.out ++ x := by
  cases i with
  | html b => exact ⟨_, rfl⟩
  | text b => exact ⟨_, rfl⟩
  | footref l =>
    cases h : entry w.table (normLabel l) with
    | none => rw [renderItem_undefined h]; exact ⟨_, rfl⟩
    | some e =>
      cases hr : e.refIndex with
      | some k => rw [renderItem_seen h hr]; exact ⟨_, rfl⟩
      | none => rw [renderItem_fresh h hr]; exact ⟨_, rfl⟩

theorem renderItem_count_le (w : Walk) (i : Item) : w.count ≤ (renderItem w i).count := by
  rcases renderItem_cases w i with h | ⟨_, _, _, _, _, _, h⟩
  · rw [h.2]
  · rw [h]; exact Nat.le_succ _

theorem renderItem_labels (w : Walk) (i : Item) :
    (renderItem w i).table.map (fun e => e.label) = w.table.map (fun e => e.label) := by
  rcases renderItem_cases w i with h | ⟨_, _, _, _, _, h, _⟩
  · rw [h.1]
  · rw [h, assign_labels]

theorem renderItem_info (w : Walk) (i : Item) (l : List Nat) :
    (entry (renderItem w i).table l).map (fun e => (e.label, e.content)) =
      (entry w.table l).map (fun e => (e.label, e.content)) := by
  rcases renderItem_cases w i with h | ⟨_, _, _, _, _, h, _⟩
  · rw [h.1]
  · rw [h, entry_assign, Option.map_map]
    congr 1
    funext e
    simp only [Function.comp]
    split <;> rfl

theorem renderItem_stable (w : Walk) (i : Item) (l : List Nat) (k : Nat)
    (h : noteIndex w.table l = some k) : noteIndex (renderItem w i).table l = some k := by
  rcases renderItem_cases w i with h' | ⟨l0, e, _, he, hr, h', _⟩
  · rw [h'.1]; exact h
  · rw [h']
    by_cases hl : l = normLabel l0
    · subst hl
      simp [noteIndex, he, hr] at h
    · rw [noteIndex_assign_other _ _ hl]; exact h

theorem renderItem_other (w : Walk) (i : Item) (l : List Nat)
    (h : ∀ l0, i = Item.footref l0 → normLabel l0 ≠ l) :
    noteIndex (renderItem w i).table l = noteIndex w.table l := by
  rcases renderItem_cases w i with h' | ⟨l0, e, hi, _, _, h', _⟩
  · rw [h'.1]
  · rw [h', noteIndex_assign_other _ _ (fun hh => h l0 hi hh.symm)]

theorem mem_assign {t : List Footnote} {l : List Nat} {k : Nat} {e : Footnote}
    (h : e ∈ assign t l k) :
    ∃ e0 ∈ t, e.label = e0.label ∧
      ((e0.label = l ∧ e.refIndex = some k) ∨ (e0.label ≠ l ∧ e = e0)) := by
  unfold assign at h
  obtain ⟨e0, he0, rfl⟩ := List.mem_map.1 h
  refine ⟨e0, he0, ?_, ?_⟩
  · split <;> rfl
  · by_cases hl : e0.label = l
    · exact Or.inl ⟨hl, by simp [hl]⟩
    · exact Or.inr ⟨hl, by simp [hl]⟩

theorem renderItem_inv (w : Walk) (i : Item) (h : WalkInv w) : WalkInv (renderItem w i) := by
  rcases renderItem_cases w i with h' | ⟨l0, e0, _, _, _, ht, hc⟩
  · unfold WalkInv
    rw [h'.1, h'.2]
    exact h
  · obtain ⟨ha, hb, hn⟩ := h
    refine ⟨?_, ?_, ?_⟩
    · intro e he k hk
      rw [ht] at he
      rw [hc]
      obtain ⟨x, hx, _, hcase | hcase⟩ := mem_assign he
      · rw [hcase.2] at hk
        cases hk
        exact ⟨Nat.succ_le_succ (Nat.zero_le _), Nat.le_refl _⟩
      · rw [hcase.2] at hk
        have := ha x hx k hk
        exact ⟨this.1, Nat.le_succ_of_le this.2⟩
    · intro e he e' he' k hk hk'
      rw [ht] at he he'
      obtain ⟨x, hx, hxl, hcase | hcase⟩ := mem_assign he
      · obtain ⟨y, hy, hyl, hcase' | hcase'⟩ := mem_assign he'
        · rw [hxl, hyl, hcase.1, hcase'.1]
        · rw [hcase.2] at hk
          cases hk
          rw [hcase'.2] at hk'
          have := (ha y hy _ hk').2
          exact absurd this (Nat.not_succ_le_self _)
      · obtain ⟨y, hy, hyl, hcase' | hcase'⟩ := mem_assign he'
        · rw [hcase'.2] at hk'
          cases hk'
          rw [hcase.2] at hk
          have := (ha x hx _ hk).2
          exact absurd this (Nat.not_succ_le_self _)
        · rw [hcase.2] at hk ⊢
          rw [hcase'.2] at hk' ⊢
          exact hb x hx y hy k hk hk'
    · rw [ht, assign_labels]
      exact hn

/-! ## The whole walk -/

theorem walk_out (items : List Item) (w : Walk) :
    ∃ x, (items.foldl renderItem w).out = w.out ++ x := by
  induction items generalizing w with
  | nil => exact ⟨[], by simp⟩
  | cons i rest ih =>
    obtain ⟨x, hx⟩ := renderItem_out w i
    obtain ⟨y, hy⟩ := ih (renderItem w i)
    exact ⟨x ++ y, by rw [List.foldl_cons, hy, hx, List.append_assoc]⟩

theorem walk_count_le (items : List Item) (w : Walk) :
    w.count ≤ (items.foldl renderItem w).count := by
  induction items generalizing w with
  | nil => exact Nat.le_refl _
  | cons i rest ih => exact Nat.le_trans (renderItem_count_le w i) (ih _)

theorem walk_labels (items : List Item) (w : Walk) :
    (items.foldl renderItem w).table.map (fun e => e.label) = w.table.map (fun e => e.label) := by
  induction items generalizing w with
  | nil => rfl
  | cons i rest ih => rw [List.foldl_cons, ih, renderItem_labels]

theorem walk_info (items : List Item) (w : Walk) (l : List Nat) :
    (entry (items.foldl renderItem w).table l).map (fun e => (e.label, e.content)) =
      (entry w.table l).map (fun e => (e.label, e.content)) := by
  induction items generalizing w with
  | nil => rfl
  | cons i rest ih => rw [List.foldl_cons, ih, renderItem_info]

theorem walk_isSome (items : List Item) (w : Walk) (l : List Nat) :
    (entry (items.foldl renderItem w).table l).isSome = (entry w.table l).isSome := by
  have := congrArg Option.isSome (walk_info items w l)
  simpa using this

theorem walk_stable (items : List Item) (w : Walk) (l : List Nat) (k : Nat)
    (h : noteIndex w.table l = some k) :
    noteIndex (items.foldl renderItem w).table l = some k := by
  induction items generalizing w with
  | nil => exact h
  | cons i rest ih => exact ih _ (renderItem_stable w i l k h)

theorem walk_inv (items : List Item) (w : Walk) (h : WalkInv w) :
    WalkInv (items.foldl renderItem w) := by
  induction items generalizing w with
  | nil => exact h
  | cons i rest ih => exact ih _ (renderItem_inv w i h)

theorem noteIndex_none_of_entry {t : List Footnote} {l : List Nat} {e : Footnote}
    (he : entry t l = some e) (h : noteIndex t l = none) : e.refIndex = none := by
  simpa [noteIndex, he] using h

theorem walk_assigned (items : List Item) (w : Walk) (l : List Nat)
    (he : (entry w.table l).isSome = true) (hi : noteIndex w.table l = none)
    (hm : l ∈ refLabels items) :
    ∃ k, noteIndex (items.foldl renderItem w).table l = some k ∧ w.count < k := by
  induction items generalizing w with
  | nil => cases hm
  | cons i rest ih =>
    rw [List.foldl_cons]
    have step : l ∈ refLabels rest →
        (∀ l0, i = Item.footref l0 → normLabel l0 ≠ l) →
        ∃ k, noteIndex (rest.foldl renderItem (renderItem w i)).table l = some k ∧
          w.count < k := by
      intro hm' hne
      have h1 : (entry (renderItem w i).table l).isSome = true := by
        have := congrArg Option.isSome (renderItem_info w i l)
        simp only [Option.isSome_map'] at this
        rw [this]; exact he
      obtain ⟨k, hk, hlt⟩ := ih (renderItem w i) h1 (by rw [renderItem_other w i l hne]; exact hi) hm'
      exact ⟨k, hk, Nat.lt_of_le_of_lt (renderItem_count_le w i) hlt⟩
    cases i with
    | html b => exact step hm (fun l0 h => by cases h)
    | text b => exact step hm (fun l0 h => by cases h)
    | footref l0 =>
      by_cases hl : normLabel l0 = l
      · subst hl
        obtain ⟨e, hent⟩ := Option.isSome_iff_exists.1 he
        have hr := noteIndex_none_of_entry hent hi
        refine ⟨w.count + 1, ?_, Nat.lt_succ_self _⟩
        apply walk_stable
        rw [renderItem_fresh hent hr]
        exact noteIndex_assign_same _ hent
      · have hm' : l ∈ refLabels rest := by
          simp only [refLabels, List.mem_cons] at hm
          rcases hm with h | h
          · exact absurd h.symm hl
          · exact h
        exact step hm' (fun l1 h => by cases h; exact hl)

theorem firstIndex_lt_of_mem {l : List Nat} {xs : List (List Nat)} (h : l ∈ xs) :
    firstIndex l xs < xs.length := by
  induction xs with
  | nil => cases h
  | cons x xs ih =>
    unfold firstIndex
    by_cases hx : x = l
    · simp [hx]
    · rcases List.mem_cons.1 h with h' | h'
      · exact absurd h'.symm hx
      · simp only [hx, if_false, List.length_cons]
        exact Nat.succ_lt_succ (ih h')

theorem firstIndex_le (l : List Nat) (xs : List (List Nat)) : firstIndex l xs ≤ xs.length := by
  induction xs with
  | nil => exact Nat.le_refl _
  | cons x xs ih =>
    unfold firstIndex
    by_cases hx : x = l
    · simp [hx]
    · simp only [hx, if_false, List.length_cons]
      exact Nat.succ_le_succ ih

theorem mem_of_firstIndex_lt {l : List Nat} {xs : List (List Nat)}
    (h : firstIndex l xs < xs.length) : l ∈ xs := by
  induction xs with
  | nil => cases h
  | cons x xs ih =>
    unfold firstIndex at h
    by_cases hx : x = l
    · simp [hx]
    · simp only [hx, if_false, List.length_cons] at h
      exact List.mem_cons_of_mem _ (ih (Nat.lt_of_succ_lt_succ h))

theorem walk_order (items : List Item) (w : Walk) (na nb : List Nat)
    (ha : (entry w.table na).isSome = true) (hb : (entry w.table nb).isSome = true)
    (hia : noteIndex w.table na = none) (hib : noteIndex w.table nb = none)
    (hlt : firstIndex nb (refLabels items) < firstIndex na (refLabels items))
    (hm : na ∈ refLabels items) :
    ∃ kb ka, noteIndex (items.foldl renderItem w).table nb = some kb ∧
      noteIndex (items.foldl renderItem w).table na = some ka ∧ kb < ka := by
  have hne : na ≠ nb := by
    intro h
    rw [h] at hlt
    exact Nat.lt_irrefl _ hlt
  induction items generalizing w with
  | nil => cases hm
  | cons i rest ih =>
    rw [List.foldl_cons]
    have step : refLabels (i :: rest) = refLabels rest ∨
        (∃ l1, refLabels (i :: rest) = l1 :: refLabels rest ∧ l1 ≠ na ∧ l1 ≠ nb) →
        (∀ l0, i = Item.footref l0 → normLabel l0 ≠ na ∧ normLabel l0 ≠ nb) →
        ∃ kb ka, noteIndex (rest.foldl renderItem (renderItem w i)).table nb = some kb ∧
          noteIndex (rest.foldl renderItem (renderItem w i)).table na = some ka ∧ kb < ka := by
      intro hrl hne'
      have h1 : ∀ l, (entry (renderItem w i).table l).isSome = (entry w.table l).isSome := by
        intro l
        have := congrArg Option.isSome (renderItem_info w i l)
        simpa only [Option.isSome_map'] using this
      apply ih (renderItem w i)
      · rw [h1]; exact ha
      · rw [h1]; exact hb
      · rw [renderItem_other w i na (fun l0 h => (hne' l0 h).1)]; exact hia
      · rw [renderItem_other w i nb (fun l0 h => (hne' l0 h).2)]; exact hib
      · rcases hrl with h | ⟨l1, h, h1a, h1b⟩
        · rw [h] at hlt; exact hlt
        · rw [h] at hlt
          simp only [firstIndex, h1a, h1b, if_false] at hlt
          exact Nat.lt_of_succ_lt_succ hlt
      · rcases hrl with h | ⟨l1, h, h1a, _⟩
        · rw [h] at hm; exact hm
        · rw [h] at hm
          rcases List.mem_cons.1 hm with h' | h'
          · exact absurd h'.symm h1a
          · exact h'
    cases i with
    | html b => exact step (Or.inl rfl) (fun l0 h => by cases h)
    | text b => exact step (Or.inl rfl) (fun l0 h => by cases h)
    | footref l0 =>
      by_cases hla : normLabel l0 = na
      · exfalso
        simp only [refLabels, firstIndex, hla, if_true] at hlt
        exact Nat.not_lt_zero _ hlt
      · by_cases hlb : normLabel l0 = nb
        · subst hlb
          obtain ⟨e, hent⟩ := Option.isSome_iff_exists.1 hb
          have hr := noteIndex_none_of_entry hent hib
          have hm' : na ∈ refLabels rest := by
            simp only [refLabels, List.mem_cons] at hm
            rcases hm with h | h
            · exact absurd h hne
            · exact h
          have hstep := renderItem_fresh hent hr
          have ha' : (entry (renderItem w (Item.footref l0)).table na).isSome = true := by
            have := congrArg Option.isSome (renderItem_info w (Item.footref l0) na)
            simp only [Option.isSome_map'] at this
            rw [this]; exact ha
          have hia' : noteIndex (renderItem w (Item.footref l0)).table na = none := by
            rw [renderItem_other w _ na (fun l1 h => by cases h; exact hla)]; exact hia
          obtain ⟨ka, hka, hltk⟩ := walk_assigned rest _ na ha' hia' hm'
          refine ⟨w.count + 1, ka, ?_, hka, ?_⟩
          · apply walk_stable
            rw [hstep]
            exact noteIndex_assign_same _ hent
          · rw [hstep] at hltk
            exact hltk
        · exact step (Or.inr ⟨normLabel l0, rfl, hla, hlb⟩)
            (fun l1 h => by cases h; exact ⟨hla, hlb⟩)

/-! ## The footnote section -/

theorem pair_sublist_range (i j n : Nat) (hij : i < j) (hj : j < n) :
    [i, j].Sublist (List.range n) := by
  induction n with
  | zero => cases hj
  | succ n ih =>
    rw [List.range_succ]
    by_cases h : j = n
    · subst h
      have h1 : [i].Sublist (List.range j) :=
        List.singleton_sublist.2 (List.mem_range.2 hij)
      exact List.Sublist.append h1 (List.Sublist.refl [j])
    · exact (ih (by omega)).trans (List.sublist_append_left _ _)

theorem pair_sublist_split {α : Type} {x y : α} {l : List α} (h : [x, y].Sublist l) :
    ∃ a b c, l = a ++ x :: (b ++ y :: c) := by
  induction l with
  | nil => cases h
  | cons z l ih =>
    cases h with
    | cons _ h' =>
      obtain ⟨a, b, c, rfl⟩ := ih h'
      exact ⟨z :: a, b, c, rfl⟩
    | cons₂ _ h' =>
      obtain ⟨b, c, rfl⟩ := List.append_of_mem (List.singleton_sublist.1 h')
      exact ⟨[], b, c, rfl⟩

theorem find_by_index {w : Walk} (h : WalkInv w) {e : Footnote} {k : Nat} (he : e ∈ w.table)
    (hk : e.refIndex = some k) :
    w.table.find? (fun x => decide (x.refIndex = some k)) = some e := by
  cases hf : w.table.find? (fun x => decide (x.refIndex = some k)) with
  | none =>
    rw [List.find?_eq_none] at hf
    exact absurd (by simpa using hk) (hf e he)
  | some x =>
    have hx : x ∈ w.table := List.mem_of_find?_eq_some hf
    have hxk : x.refIndex = some k := by simpa using List.find?_some hf
    have hl := h.2.1 x hx e he k hxk hk
    rw [List.inj_on_of_nodup_map h.2.2 hx he hl]

theorem section_order {w : Walk} (h : WalkInv w) {ea eb : Footnote} {ka kb : Nat}
    (hea : ea ∈ w.table) (heb : eb ∈ w.table) (hka : ea.refIndex = some ka)
    (hkb : eb.refIndex = some kb) (hlt : kb < ka) :
    [(kb, eb), (ka, ea)].Sublist (footnoteSection w) := by
  have hb1 := h.1 eb heb kb hkb
  have ha1 := h.1 ea hea ka hka
  have hs := pair_sublist_range (kb - 1) (ka - 1) w.count (by omega) (by omega)
  have := hs.filterMap (fun i =>
    (w.table.find? (fun e => decide (e.refIndex = some (i + 1)))).map (fun e => (i + 1, e)))
  have e1 : kb - 1 + 1 = kb := by omega
  have e2 : ka - 1 + 1 = ka := by omega
  simp only [List.filterMap_cons, List.filterMap_nil, e1, e2, find_by_index h heb hkb,
    find_by_index h hea hka, Option.map_some'] at this
  exact this

theorem section_mem {w : Walk} {x : Nat × Footnote} (h : x ∈ footnoteSection w) :
    x.2 ∈ w.table := by
  unfold footnoteSection at h
  obtain ⟨i, _, hi⟩ := List.mem_filterMap.1 h
  cases hf : w.table.find? (fun e => decide (e.refIndex = some (i + 1))) with
  | none => simp [hf] at hi
  | some e =>
    simp only [hf, Option.map_some', Option.some.injEq] at hi
    rw [← hi]
    exact List.mem_of_find?_eq_some hf

/-! ## Footnotes through the bridge -/

theorem take_toInt_eq_cstr (m : List Nat) (h : strlen m < 2 ^ 31) :
    m.take (toInt (strlen m)).toNat = cstr m := by
  rw [toInt_of_lt _ h, Int.toNat_ofNat, take_cstr m _ (Nat.le_refl _), strlen_eq_length_cstr,
    List.take_length]

theorem render_eq (F : Front) (src : List Nat) :
    render (compiledOf F src) =
      (walkOf F src).out ++ renderSection (footnoteSection (walkOf F src)) := rfl

theorem walkOf_inv (F : Front) (src : List Nat) : WalkInv (walkOf F src) := by
  apply walk_inv
  have := buildTable_inv (F src true).defs
  refine ⟨?_, ?_, this.2⟩
  · intro e he k hk
    rw [this.1 e he] at hk
    cases hk
  · intro e he _ _ k hk
    rw [this.1 e he] at hk
    cases hk

theorem entry_buildTable_of_mem {defs : List (List Nat × List Nat)} {l : List Nat}
    (h : l ∈ defLabels defs) :
    entry (buildTable defs) l =
      some { label := l, content := defContent defs l, refIndex := none } := by
  rw [entry_buildTable]
  unfold defContent
  cases hf : defs.find? (fun d => decide (normLabel d.1 = l)) with
  | none =>
    rw [List.find?_eq_none] at hf
    obtain ⟨d, hd, rfl⟩ := List.mem_map.1 h
    exact absurd (by simp) (hf d hd)
  | some d => rfl

theorem entry_buildTable_of_not_mem {defs : List (List Nat × List Nat)} {l : List Nat}
    (h : l ∉ defLabels defs) : entry (buildTable defs) l = none := by
  rw [entry_buildTable]
  cases hf : defs.find? (fun d => decide (normLabel d.1 = l)) with
  | none => rfl
  | some d =>
    have h1 : normLabel d.1 = l := by simpa using List.find?_some hf
    exact absurd (h1 ▸ List.mem_map_of_mem (fun d => normLabel d.1) (List.mem_of_find?_eq_some hf)) h

theorem walkOf_entry (F : Front) (src : List Nat) {l : List Nat} {k : Nat}
    (hd : l ∈ defLabels (F src true).defs)
    (hk : noteIndex (walkOf F src).table l = some k) :
    entry (walkOf F src).table l =
      some { label := l, content := defContent (F src true).defs l, refIndex := some k } := by
  have hinfo := walk_info (F src true).body
    { table := buildTable (F src true).defs, count := 0, out := [] } l
  simp only [] at hinfo
  rw [entry_buildTable_of_mem hd] at hinfo
  unfold walkOf renderBody at hk ⊢
  cases he : entry (List.foldl renderItem
      { table := buildTable (F src true).defs, count := 0, out := [] } (F src true).body).table l with
  | none => simp [noteIndex, he] at hk
  | some e =>
    rw [he] at hinfo
    simp only [Option.map_some', Option.some.injEq, Prod.mk.injEq] at hinfo
    simp only [noteIndex, he, Option.some_bind] at hk
    obtain ⟨l', c', r'⟩ := e
    simp only [] at hinfo hk
    rw [hinfo.1, hinfo.2, hk]

/-- C7, as amended: over the engine of the specification, for every input
shorter than 2^31 bytes in which label `b` is first referenced before label
`a` and the first definition of `a` stands before the first definition of
`b`, the bridge returns the rendered text, and its footnote section lists
the note of `b`, with the content of its definition, before the note
of `a`. -/
theorem footnotes_in_reference_order (F : Front) (m : List Nat) (s : Heap)
    (a b : List Nat) (hlen : strlen m < 2 ^ 31)
    (href : firstIndex (normLabel b) (refLabels (F (cstr m) true).body) <
      firstIndex (normLabel a) (refLabels (F (cstr m) true).body))
    (hra : normLabel a ∈ refLabels (F (cstr m) true).body)
    (hdef : firstIndex (normLabel a) (defLabels (F (cstr m) true).defs) <
      firstIndex (normLabel b) (defLabels (F (cstr m) true).defs))
    (hdb : normLabel b ∈ defLabels (F (cstr m) true).defs) :
    (markdownToHTML (specEngine F) m s).1 ≠ NULL ∧
    ∃ kb ka pre mid post, kb < ka ∧
      footnoteSection (walkOf F (cstr m)) =
        pre ++ (kb, { label := normLabel b
                      content := defContent (F (cstr m) true).defs (normLabel b)
                      refIndex := some kb }) ::
          (mid ++ (ka, { label := normLabel a
                         content := defContent (F (cstr m) true).defs (normLabel a)
                         refIndex := some ka }) :: post) ∧
      (specEngine F).load (markdownToHTML (specEngine F) m s).2
          (markdownToHTML (specEngine F) m s).1 =
        (walkOf F (cstr m)).out ++ (sectionOpen ++
          ((footnoteSection (walkOf F (cstr m))).map noteItem).flatten ++ sectionClose) := by
  have hda : normLabel a ∈ defLabels (F (cstr m) true).defs :=
    mem_of_firstIndex_lt (Nat.lt_of_lt_of_le hdef (firstIndex_le _ _))
  have hea := entry_buildTable_of_mem hda
  have heb := entry_buildTable_of_mem hdb
  obtain ⟨kb, ka, hkb, hka, hlt⟩ := walk_order (F (cstr m) true).body
    { table := buildTable (F (cstr m) true).defs, count := 0, out := [] }
    (normLabel a) (normLabel b) (by simp [hea]) (by simp [heb])
    (by simp [noteIndex, hea]) (by simp [noteIndex, heb]) href hra
  have hwa := walkOf_entry F (cstr m) hda hka
  have hwb := walkOf_entry F (cstr m) hdb hkb
  have hsub := section_order (walkOf_inv F (cstr m)) (entry_mem hwa).1 (entry_mem hwb).1
    rfl rfl hlt
  obtain ⟨pre, mid, post, hsec⟩ := pair_sublist_split hsub
  have hne : footnoteSection (walkOf F (cstr m)) ≠ [] := by
    rw [hsec]; simp
  have hrender : render (compiledOf F (cstr m)) =
      (walkOf F (cstr m)).out ++ (sectionOpen ++
        ((footnoteSection (walkOf F (cstr m))).map noteItem).flatten ++ sectionClose) := by
    rw [render_eq, renderSection, if_neg hne]
  have hnil : render (compiledOf F (m.take (toInt (strlen m)).toNat)) ≠ [] := by
    rw [take_toInt_eq_cstr m hlen, hrender]
    simp [sectionOpen, ascii]
  obtain ⟨h1, h2⟩ := spec_markdownToHTML F m s hnil
  refine ⟨by rw [h1]; exact Nat.succ_ne_zero _, kb, ka, pre, mid, post, hlt, hsec, ?_⟩
  rw [h2, take_toInt_eq_cstr m hlen, hrender]

/-- C7, witness: references `[^b]` then `[^a]`, definitions of `a` then
`b`; the returned text lists the note of `b` (`B`) as item 1 and the note
of `a` (`A`) as item 2. -/
theorem footnotes_in_reference_order_witness :
    strlen (ascii "[^b] [^a]\n\n[^a]: A\n[^b]: B\n" ++ [0]) < 2 ^ 31 ∧
    firstIndex (normLabel (ascii "b")) (refLabels
        (plainFront (cstr (ascii "[^b] [^a]\n\n[^a]: A\n[^b]: B\n" ++ [0])) true).body) <
      firstIndex (normLabel (ascii "a")) (refLabels
        (plainFront (cstr (ascii "[^b] [^a]\n\n[^a]: A\n[^b]: B\n" ++ [0])) true).body) ∧
    firstIndex (normLabel (ascii "a")) (defLabels
        (plainFront (cstr (ascii "[^b] [^a]\n\n[^a]: A\n[^b]: B\n" ++ [0])) true).defs) <
      firstIndex (normLabel (ascii "b")) (defLabels
        (plainFront (cstr (ascii "[^b] [^a]\n\n[^a]: A\n[^b]: B\n" ++ [0])) true).defs) ∧
    (markdownToHTML (specEngine plainFront)
      (ascii "[^b] [^a]\n\n[^a]: A\n[^b]: B\n" ++ [0]) emptyHeap).1 ≠ NULL ∧
    (specEngine plainFront).load
      (markdownToHTML (specEngine plainFront)
        (ascii "[^b] [^a]\n\n[^a]: A\n[^b]: B\n" ++ [0]) emptyHeap).2
      (markdownToHTML (specEngine plainFront)
        (ascii "[^b] [^a]\n\n[^a]: A\n[^b]: B\n" ++ [0]) emptyHeap).1 =
      ascii ("<p><sup id=\"fnref:1\"><a href=\"#fn:1\" rel=\"footnote\">1</a></sup> " ++
        "<sup id=\"fnref:2\"><a href=\"#fn:2\" rel=\"footnote\">2</a></sup></p>\n" ++
        "<div class=\"footnotes\">\n<hr/>\n<ol>\n" ++
        "<li id=\"fn:1\">\n<p>B</p>\n<a href=\"#fnref:1\" rev=\"footnote\">&#8617;</a></li>\n" ++
        "<li id=\"fn:2\">\n<p>A</p>\n<a href=\"#fnref:2\" rev=\"footnote\">&#8617;</a></li>\n" ++
        "</ol>\n</div>\n") :=
  ⟨by decide, by decide, by decide,
    (footnotes_in_reference_order plainFront
      (ascii "[^b] [^a]\n\n[^a]: A\n[^b]: B\n" ++ [0]) emptyHeap (ascii "a") (ascii "b")
      (by decide) (by decide) (by decide) (by decide) (by decide)).1,
    by decide⟩

theorem escape_literalRef_ne_nil (l : List Nat) : escape (literalRef l) ≠ [] := by
  have h : ascii "[^" = [91, 94] := by decide
  simp [escape, literalRef, h, escapeByte]

theorem body_split {items : List Item} {i : Nat} {x : Item} (h : items[i]? = some x) :
    items = items.take i ++ x :: items.drop (i + 1) := by
  obtain ⟨hi, hx⟩ := List.getElem?_eq_some.1 h
  rw [← hx, ← List.drop_eq_getElem_cons hi, List.take_append_drop]

/-- C8, as amended: over the engine of the specification, for every input
shorter than 2^31 bytes whose body has, at position `i`, a reference to a
label with no definition, the bridge returns the rendered text; it is the
output of the items before position `i`, then the literal text of the
reference as raw text is emitted, then the rest; and the footnote section
has no entry for the label. -/
theorem undefined_reference_literal (F : Front) (m : List Nat) (s : Heap)
    (label : List Nat) (i : Nat) (hlen : strlen m < 2 ^ 31)
    (hi : (F (cstr m) true).body[i]? = some (Item.footref label))
    (hu : normLabel label ∉ defLabels (F (cstr m) true).defs) :
    (markdownToHTML (specEngine F) m s).1 ≠ NULL ∧
    (∃ post, (specEngine F).load (markdownToHTML (specEngine F) m s).2
        (markdownToHTML (specEngine F) m s).1 =
      (renderBody (buildTable (F (cstr m) true).defs) ((F (cstr m) true).body.take i)).out ++
        escape (literalRef label) ++ post) ∧
    ∀ x ∈ footnoteSection (walkOf F (cstr m)), x.2.label ≠ normLabel label := by
  have hent := entry_buildTable_of_not_mem hu
  have hsplit := body_split hi
  have hw1 : entry (renderBody (buildTable (F (cstr m) true).defs)
      ((F (cstr m) true).body.take i)).table (normLabel label) = none := by
    have := walk_isSome ((F (cstr m) true).body.take i)
      { table := buildTable (F (cstr m) true).defs, count := 0, out := [] } (normLabel label)
    simp only [hent, Option.isSome_none] at this
    unfold renderBody
    cases h : entry (List.foldl renderItem
      { table := buildTable (F (cstr m) true).defs, count := 0, out := [] }
      (List.take i (F (cstr m) true).body)).table (normLabel label) with
    | none => rfl
    | some e => rw [h] at this; cases this
  obtain ⟨x, hx⟩ := walk_out ((F (cstr m) true).body.drop (i + 1))
    (renderItem (renderBody (buildTable (F (cstr m) true).defs)
      ((F (cstr m) true).body.take i)) (Item.footref label))
  have hout : (walkOf F (cstr m)).out =
      (renderBody (buildTable (F (cstr m) true).defs) ((F (cstr m) true).body.take i)).out ++
        escape (literalRef label) ++ x := by
    unfold walkOf
    conv_lhs => rw [hsplit]
    unfold renderBody at hx ⊢
    rw [List.foldl_append, List.foldl_cons, hx]
    unfold renderBody at hw1
    rw [renderItem_undefined hw1]
  have hnil : render (compiledOf F (m.take (toInt (strlen m)).toNat)) ≠ [] := by
    rw [take_toInt_eq_cstr m hlen, render_eq, hout]
    have := escape_literalRef_ne_nil label
    simp [this]
  obtain ⟨h1, h2⟩ := spec_markdownToHTML F m s hnil
  refine ⟨by rw [h1]; exact Nat.succ_ne_zero _, ⟨x ++ renderSection (footnoteSection
    (walkOf F (cstr m))), ?_⟩, ?_⟩
  · rw [h2, take_toInt_eq_cstr m hlen, render_eq, hout]
    simp only [List.append_assoc]
  · intro y hy hl
    have hmem := section_mem hy
    have hinv := walkOf_inv F (cstr m)
    have he := entry_of_mem hinv.2.2 hmem
    rw [hl] at he
    have hsome := walk_isSome (F (cstr m) true).body
      { table := buildTable (F (cstr m) true).defs, count := 0, out := [] } (normLabel label)
    unfold walkOf renderBody at he
    rw [he] at hsome
    simp only [hent] at hsome
    cases hsome

/-- C8, witness: in `see [^missing] here` the reference stands at position
2 of the body and has no definition; its literal text needs no escaping,
and the returned text has it in place. -/
theorem undefined_reference_literal_witness :
    strlen (ascii "see [^missing] here\n" ++ [0]) < 2 ^ 31 ∧
    (plainFront (cstr (ascii "see [^missing] here\n" ++ [0])) true).body[2]? =
      some (Item.footref (ascii "missing")) ∧
    normLabel (ascii "missing") ∉
      defLabels (plainFront (cstr (ascii "see [^missing] here\n" ++ [0])) true).defs ∧
    escape (literalRef (ascii "missing")) = ascii "[^missing]" ∧
    (markdownToHTML (specEngine plainFront)
      (ascii "see [^missing] here\n" ++ [0]) emptyHeap).1 ≠ NULL ∧
    (specEngine plainFront).load
      (markdownToHTML (specEngine plainFront) (ascii "see [^missing] here\n" ++ [0]) emptyHeap).2
      (markdownToHTML (specEngine plainFront) (ascii "see [^missing] here\n" ++ [0]) emptyHeap).1
      = ascii "<p>see [^missing] here</p>\n" :=
  ⟨by decide, by decide, by decide, by decide,
    (undefined_reference_literal plainFront (ascii "see [^missing] here\n" ++ [0]) emptyHeap
      (ascii "missing") 2 (by decide) (by decide) (by decide)).1,
    by decide⟩

/-! ## Inputs of 2^32 bytes -/

theorem strlen_append_of_ne_zero (A B : List Nat) (h : ∀ c ∈ A, c ≠ 0) :
    strlen (A ++ B) = A.length + strlen B := by
  induction A with
  | nil => simp
  | cons c A ih =>
    have hc : c ≠ 0 := h c (List.mem_cons_self _ _)
    have := ih (fun x hx => h x (List.mem_cons_of_mem _ hx))
    have e : strlen (c :: (A ++ B)) = strlen (A ++ B) + 1 := by simp [strlen, hc]
    rw [List.cons_append, e, this, List.length_cons]
    omega

theorem cstr_append_of_ne_zero (A B : List Nat) (h : ∀ c ∈ A, c ≠ 0) :
    cstr (A ++ B) = A ++ cstr B := by
  induction A with
  | nil => simp
  | cons c A ih =>
    have hc : c ≠ 0 := h c (List.mem_cons_self _ _)
    have := ih (fun x hx => h x (List.mem_cons_of_mem _ hx))
    have e : cstr (c :: (A ++ B)) = c :: cstr (A ++ B) := by simp [cstr, hc]
    rw [List.cons_append, e, this, List.cons_append]

theorem toInt_two_pow_32 : toInt 4294967296 = 0 := by decide

theorem splitLines_ne_nil (t : List Nat) : splitLines t ≠ [] := by
  cases t with
  | nil => simp [splitLines]
  | cons c cs =>
    unfold splitLines
    split
    · simp
    · split <;> simp

theorem splitLines_append_newline (A B : List Nat) :
    splitLines (A ++ 10 :: B) = splitLines A ++ splitLines B := by
  induction A with
  | nil => simp [splitLines]
  | cons c A ih =>
    rw [List.cons_append]
    by_cases hc : c = 10
    · simp only [splitLines, hc, if_true, ih, List.cons_append]
    · simp only [splitLines, hc, if_false, ih]
      cases h : splitLines A with
      | nil => exact absurd h (splitLines_ne_nil A)
      | cons l ls => rfl

theorem splitLines_filler (R : List Nat) (h : ∀ c ∈ R, c = 120) : splitLines R = [R] := by
  induction R with
  | nil => rfl
  | cons c R ih =>
    have hc : c = 120 := h c (List.mem_cons_self _ _)
    have := ih (fun x hx => h x (List.mem_cons_of_mem _ hx))
    simp [splitLines, hc, this]

theorem inline_filler (R : List Nat) (h : ∀ c ∈ R, c = 120) (acc : List Nat)
    (items : List Item) :
    R.foldl inlineStep { mode := Mode.plain, acc := acc, items := items } =
      { mode := Mode.plain, acc := acc ++ R, items := items } := by
  induction R generalizing acc with
  | nil => simp
  | cons c R ih =>
    have hc : c = 120 := h c (List.mem_cons_self _ _)
    rw [List.foldl_cons]
    have hstep : inlineStep { mode := Mode.plain, acc := acc, items := items } c =
        { mode := Mode.plain, acc := acc ++ [c], items := items } := by
      simp [inlineStep, hc]
    rw [hstep, ih (fun x hx => h x (List.mem_cons_of_mem _ hx))]
    simp

theorem filler_shape (R : List Nat) (h : ∀ c ∈ R, c = 120) (hlen : 4 ≤ R.length) :
    ∃ R', R = 120 :: 120 :: 120 :: 120 :: R' := by
  match R, h, hlen with
  | a :: b :: c :: d :: R', h, _ =>
    have ha := h a (by simp)
    have hb := h b (by simp)
    have hc := h c (by simp)
    have hd := h d (by simp)
    exact ⟨R', by rw [ha, hb, hc, hd]⟩
  | [], _, hl => simp at hl
  | [_], _, hl => simp at hl
  | [_, _], _, hl => simp at hl
  | [_, _, _], _, hl => simp at hl

theorem scanInline_filler (R : List Nat) (h : ∀ c ∈ R, c = 120) (hlen : 4 ≤ R.length) :
    scanInline true R = [Item.text R] := by
  have hne : R ≠ [] := by
    intro h0
    rw [h0] at hlen
    simp at hlen
  simp [scanInline, inline_filler R h, inlineEnd, flushText, hne]

theorem blockStep_filler (st : Blocks) (R : List Nat) (h : ∀ c ∈ R, c = 120)
    (hlen : 4 ≤ R.length) :
    blockStep true st R =
      if st.para then
        { closeNote st with body := st.body ++ [Item.text [10]] ++ [Item.text R] }
      else
        { closeNote st with para := true
                            body := st.body ++ [Item.html (ascii "<p>")] ++ [Item.text R] } := by
  have hscan := scanInline_filler R h hlen
  obtain ⟨R', rfl⟩ := filler_shape R h hlen
  have h1 : defMarker (120 :: 120 :: 120 :: 120 :: R') = none := by
    simp [defMarker]
  have h2 : isBlank (120 :: 120 :: 120 :: 120 :: R') = false := by
    simp [isBlank]
  have h3 : isIndented (120 :: 120 :: 120 :: 120 :: R') = false := by
    simp [isIndented]
  unfold blockStep
  simp only [if_true, h1, h2, h3, hscan]
  cases st.note <;> simp

theorem plainFront_filler (lead R : List Nat) (h : ∀ c ∈ R, c = 120) :
    plainFront (lead ++ 10 :: R) true =
      { body := (closeNote (closePara (blockStep true
          ((splitLines lead).foldl (blockStep true) noBlocks) R))).body
        defs := (closeNote (closePara (blockStep true
          ((splitLines lead).foldl (blockStep true) noBlocks) R))).defs.map
            (fun d => (d.1, ascii "<p>" ++ escape d.2 ++ ascii "</p>\n")) } := by
  unfold plainFront
  simp only [splitLines_append_newline, splitLines_filler R h, List.foldl_append,
    List.foldl_cons, List.foldl_nil]

theorem filler_mem (n : Nat) : ∀ c ∈ List.replicate n 120, c = 120 :=
  fun _ hc => List.eq_of_mem_replicate hc

theorem hugeFootnoteInput_strlen : strlen hugeFootnoteInput = 4294967296 := by
  have hA : ∀ c ∈ ascii "[^b] [^a]\n\n[^a]: A\n[^b]: B\n", c ≠ 0 := by decide
  have hAR : ∀ c ∈ ascii "[^b] [^a]\n\n[^a]: A\n[^b]: B\n" ++ List.replicate 4294967269 120,
      c ≠ 0 := by
    intro c hc
    rcases List.mem_append.1 hc with h | h
    · exact hA c h
    · rw [List.eq_of_mem_replicate h]; decide
  have hl : (ascii "[^b] [^a]\n\n[^a]: A\n[^b]: B\n").length = 27 := by decide
  unfold hugeFootnoteInput
  rw [strlen_append_of_ne_zero _ _ hAR, List.length_append, List.length_replicate, hl]
  rfl

theorem hugeFootnoteInput_cstr :
    cstr hugeFootnoteInput =
      ascii "[^b] [^a]\n\n[^a]: A\n[^b]: B" ++ 10 :: List.replicate 4294967269 120 := by
  have hA : ∀ c ∈ ascii "[^b] [^a]\n\n[^a]: A\n[^b]: B\n", c ≠ 0 := by decide
  have hAR : ∀ c ∈ ascii "[^b] [^a]\n\n[^a]: A\n[^b]: B\n" ++ List.replicate 4294967269 120,
      c ≠ 0 := by
    intro c hc
    rcases List.mem_append.1 hc with h | h
    · exact hA c h
    · rw [List.eq_of_mem_replicate h]; decide
  have hs : ascii "[^b] [^a]\n\n[^a]: A\n[^b]: B\n" =
      ascii "[^b] [^a]\n\n[^a]: A\n[^b]: B" ++ [10] := by decide
  unfold hugeFootnoteInput
  rw [cstr_append_of_ne_zero _ _ hAR, hs]
  generalize List.replicate 4294967269 120 = R
  simp [cstr]

theorem hugeFootnoteInput_parsed :
    plainFront (cstr hugeFootnoteInput) true =
      { body := [Item.html (ascii "<p>"), Item.footref (ascii "b"), Item.text (ascii " "),
          Item.footref (ascii "a"), Item.html (ascii "</p>\n"), Item.html (ascii "<p>"),
          Item.text (List.replicate 4294967269 120), Item.html (ascii "</p>\n")]
        defs := [(ascii "a", ascii "<p>A</p>\n"), (ascii "b", ascii "<p>B</p>\n")] } := by
  have hst : (splitLines (ascii "[^b] [^a]\n\n[^a]: A\n[^b]: B")).foldl (blockStep true) noBlocks =
      { para := false, note := some (ascii "b", ascii "B"), gap := false,
        body := [Item.html (ascii "<p>"), Item.footref (ascii "b"), Item.text (ascii " "),
          Item.footref (ascii "a"), Item.html (ascii "</p>\n")],
        defs := [(ascii "a", ascii "A")] } := by
    rfl
  have he1 : ascii "<p>" ++ (escape (ascii "A") ++ ascii "</p>\n") = ascii "<p>A</p>\n" := by
    decide
  have he2 : ascii "<p>" ++ (escape (ascii "B") ++ ascii "</p>\n") = ascii "<p>B</p>\n" := by
    decide
  rw [hugeFootnoteInput_cstr, plainFront_filler _ _ (filler_mem _), hst,
    blockStep_filler _ _ (filler_mem _) (by rw [List.length_replicate]; decide)]
  generalize List.replicate 4294967269 120 = R
  simp [closeNote, closePara, he1, he2]

/-- C7, counterexample: an input of 2^32 bytes in which `b` is referenced
before `a` and `a` is defined before `b`.  Its length converts to the `int`
0, the engine is handed no byte, renders the empty text, and the bridge
returns `NULL`: no footnote section is returned. -/
theorem huge_input_loses_footnotes :
    firstIndex (normLabel (ascii "b"))
        (refLabels (plainFront (cstr hugeFootnoteInput) true).body) <
      firstIndex (normLabel (ascii "a"))
        (refLabels (plainFront (cstr hugeFootnoteInput) true).body) ∧
    normLabel (ascii "a") ∈ refLabels (plainFront (cstr hugeFootnoteInput) true).body ∧
    firstIndex (normLabel (ascii "a"))
        (defLabels (plainFront (cstr hugeFootnoteInput) true).defs) <
      firstIndex (normLabel (ascii "b"))
        (defLabels (plainFront (cstr hugeFootnoteInput) true).defs) ∧
    normLabel (ascii "b") ∈ defLabels (plainFront (cstr hugeFootnoteInput) true).defs ∧
    toInt (strlen hugeFootnoteInput) = 0 ∧
    (markdownToHTML (specEngine plainFront) hugeFootnoteInput emptyHeap).1 = NULL := by
  have hr : refLabels (plainFront (cstr hugeFootnoteInput) true).body =
      [normLabel (ascii "b"), normLabel (ascii "a")] := by
    rw [hugeFootnoteInput_parsed]
    generalize List.replicate 4294967269 120 = R
    rfl
  have hd : defLabels (plainFront (cstr hugeFootnoteInput) true).defs =
      [normLabel (ascii "a"), normLabel (ascii "b")] := by
    rw [hugeFootnoteInput_parsed]; rfl
  have h0 : toInt (strlen hugeFootnoteInput) = 0 := by
    rw [hugeFootnoteInput_strlen, toInt_two_pow_32]
  have hnull : (markdownToHTML (specEngine plainFront) hugeFootnoteInput emptyHeap).1 = NULL := by
    rw [markdownToHTML_fst, spec_documentCall, h0]
    have : render (compiledOf plainFront []) = [] := by decide
    simp [this]
  rw [hr, hd]
  exact ⟨by decide, by decide, by decide, by decide, h0, hnull⟩

theorem hugeMissingInput_strlen : strlen hugeMissingInput = 4294967296 := by
  have hA : ∀ c ∈ ascii "[^missing]\n", c ≠ 0 := by decide
  have hAR : ∀ c ∈ ascii "[^missing]\n" ++ List.replicate 4294967285 120, c ≠ 0 := by
    intro c hc
    rcases List.mem_append.1 hc with h | h
    · exact hA c h
    · rw [List.eq_of_mem_replicate h]; decide
  have hl : (ascii "[^missing]\n").length = 11 := by decide
  unfold hugeMissingInput
  rw [strlen_append_of_ne_zero _ _ hAR, List.length_append, List.length_replicate, hl]
  rfl

theorem hugeMissingInput_cstr :
    cstr hugeMissingInput = ascii "[^missing]" ++ 10 :: List.replicate 4294967285 120 := by
  have hA : ∀ c ∈ ascii "[^missing]\n", c ≠ 0 := by decide
  have hAR : ∀ c ∈ ascii "[^missing]\n" ++ List.replicate 4294967285 120, c ≠ 0 := by
    intro c hc
    rcases List.mem_append.1 hc with h | h
    · exact hA c h
    · rw [List.eq_of_mem_replicate h]; decide
  have hs : ascii "[^missing]\n" = ascii "[^missing]" ++ [10] := by decide
  unfold hugeMissingInput
  rw [cstr_append_of_ne_zero _ _ hAR, hs]
  generalize List.replicate 4294967285 120 = R
  simp [cstr]

theorem hugeMissingInput_parsed :
    plainFront (cstr hugeMissingInput) true =
      { body := [Item.html (ascii "<p>"), Item.footref (ascii "missing"), Item.text [10],
          Item.text (List.replicate 4294967285 120), Item.html (ascii "</p>\n")]
        defs := [] } := by
  have hst : (splitLines (ascii "[^missing]")).foldl (blockStep true) noBlocks =
      { para := true, note := none, gap := false,
        body := [Item.html (ascii "<p>"), Item.footref (ascii "missing")],
        defs := [] } := by
    rfl
  rw [hugeMissingInput_cstr, plainFront_filler _ _ (filler_mem _), hst,
    blockStep_filler _ _ (filler_mem _) (by rw [List.length_replicate]; decide)]
  generalize List.replicate 4294967285 120 = R
  simp [closeNote, closePara]

/-- C8, counterexample: an input of 2^32 bytes with the reference
`[^missing]` at position 1 of its body and no definition.  Its length
converts to the `int` 0, the engine is handed no byte, and the bridge
returns `NULL`: no text with `[^missing]` is returned. -/
theorem huge_input_loses_reference :
    (plainFront (cstr hugeMissingInput) true).body[1]? =
      some (Item.footref (ascii "missing")) ∧
    normLabel (ascii "missing") ∉ defLabels (plainFront (cstr hugeMissingInput) true).defs ∧
    toInt (strlen hugeMissingInput) = 0 ∧
    (markdownToHTML (specEngine plainFront) hugeMissingInput emptyHeap).1 = NULL := by
  have h0 : toInt (strlen hugeMissingInput) = 0 := by
    rw [hugeMissingInput_strlen, toInt_two_pow_32]
  have hnull : (markdownToHTML (specEngine plainFront) hugeMissingInput emptyHeap).1 = NULL := by
    rw [markdownToHTML_fst, spec_documentCall, h0]
    have : render (compiledOf plainFront []) = [] := by decide
    simp [this]
  rw [hugeMissingInput_parsed]
  exact ⟨rfl, by simp [defLabels], h0, hnull⟩

end PreviewMarkdown
